import Mathlib

/-!
Verification development for the navigator tree state engine of
`src/components/Navigator/NavigatorCard.vue` (swift-docc-render).

The component owns a flat, uid-indexed collection of tree nodes
(`children`), a set of open node uids (`openNodes`), the ordered list of
rendered nodes (`nodesToRender`), and a filter state.  The definitions
below are a shallow embedding of the component's methods and computed
properties; theorems about them settle the frozen claims.

Modelling conventions, stated once:
* `uid` is a `Nat`; the `INDEX_ROOT_KEY` sentinel parent becomes `none`
  in `parent : Option Nat`.
* `openNodes` is a JS object used only as a set of uid keys; it is
  modelled as a `Finset Nat`.
* JS `Set`s of node objects use reference identity.  All node objects
  flowing into those sets come from the single `children` collection,
  whose elements are pairwise distinct under the uid-uniqueness
  invariant, so structural equality (`DecidableEq`) is faithful.
* The JS loops in `getParents` / `getAllChildren` can only diverge on
  cyclic inputs, which the flat-tree invariants exclude; they are
  modelled with an explicit fuel of `children.length (+ 1)`, which the
  theorems show is enough on well-formed inputs.
* Display-only fields of `NavigatorFlatItem` (`depth`, `index`,
  `siblingsCount`, `deprecated`) are never read by the state engine and
  are omitted.
-/

/-- The topic kinds the card distinguishes: the ones mapped by
`TOPIC_TYPE_TO_TAG`, the structural `groupMarker` pseudo-type, and a
representative unmapped kind (`module`). -/
inductive TopicType where
  | article
  | learn
  | overview
  | resources
  | sampleCode
  | «section»
  | tutorial
  | project
  | groupMarker
  | module
deriving DecidableEq, Repr

/-- The three filter tags of `FILTER_TAGS`. -/
inductive FilterTag where
  | sampleCode
  | tutorials
  | articles
deriving DecidableEq, Repr

/-- `FILTER_TAGS`: the internal tag identifier strings. -/
def FILTER_TAGS : FilterTag → String
  | .sampleCode => "sampleCode"
  | .tutorials => "tutorials"
  | .articles => "articles"

/-- `FILTER_TAGS_TO_LABELS`. -/
def FILTER_TAGS_TO_LABELS : FilterTag → String
  | .sampleCode => "Sample Code"
  | .tutorials => "Tutorials"
  | .articles => "Articles"

/-- `TOPIC_TYPE_TO_TAG`: partial map from topic type to filter tag. -/
def TOPIC_TYPE_TO_TAG : TopicType → Option FilterTag
  | .article => some .articles
  | .learn => some .tutorials
  | .overview => some .tutorials
  | .resources => some .tutorials
  | .sampleCode => some .sampleCode
  | .«section» => some .tutorials
  | .tutorial => some .tutorials
  | .project => some .tutorials
  | _ => none

/-- A flat navigator node (`NavigatorFlatItem`).  `parent = none` stands
for the `INDEX_ROOT_KEY` sentinel. -/
structure NavNode where
  uid : Nat
  title : String
  path : String
  type : TopicType
  parent : Option Nat
  childUIDs : List Nat
deriving DecidableEq, Repr

/-- `childrenMap`: uid-indexed lookup over the flat `children` list.
`Object.fromEntries` keeps the last entry for a duplicated key; under
the uid-uniqueness invariant first and last agree, and `find?` is used. -/
def childrenMap (children : List NavNode) (uid : Nat) : Option NavNode :=
  children.find? (fun c => c.uid = uid)

/-- The uids of a list of nodes. -/
def uidsOf (l : List NavNode) : List Nat := l.map (·.uid)

/-- Fueled worker for `getParents`.  The JS loop keeps a one-element
stack of uids and walks `parent` links up to the root, `unshift`ing each
resolved node; a uid missing from `childrenMap` would fault in JS and
yields `[]` here (unreachable on well-formed input). -/
def getParentsFuel (cm : Nat → Option NavNode) : Nat → Nat → List NavNode
  | 0, _ => []
  | fuel + 1, uid =>
    match cm uid with
    | none => []
    | some obj =>
      match obj.parent with
      | none => [obj]
      | some p => getParentsFuel cm fuel p ++ [obj]

/-- `getParents(uid)`: all ancestors of a node, root first, the node
itself last. -/
def getParents (children : List NavNode) (uid : Nat) : List NavNode :=
  getParentsFuel (childrenMap children) children.length uid

/-- Fueled worker for `getAllChildren`.  The JS loop `shift`s a uid off
the stack, records its node, and `unshift`s that node's `childUIDs`,
i.e. a depth-first preorder walk of the subtree. -/
def getAllChildrenFuel (cm : Nat → Option NavNode) : Nat → List Nat → List NavNode
  | _, [] => []
  | 0, _ :: _ => []
  | fuel + 1, uid :: rest =>
    match cm uid with
    | none => []
    | some obj => obj :: getAllChildrenFuel cm fuel (obj.childUIDs ++ rest)

/-- `getAllChildren(uid)`: the node and all of its descendants, in
depth-first preorder. -/
def getAllChildren (children : List NavNode) (uid : Nat) : List NavNode :=
  getAllChildrenFuel (childrenMap children) (children.length + 1) [uid]

/-- Modelled from the spec: `safeHighlightPattern` (in
`utils/search-utils`, not part of the given sources) escapes every
special character of the user's text, so the resulting `RegExp` with the
`i` flag and without the `g` flag tests exactly for case-insensitive
literal containment.  `containsSearch needle hay` is that containment
test on character lists. -/
def containsSearch (needle : List Char) : List Char → Bool
  | [] => needle.isEmpty
  | c :: rest => needle.isPrefixOf (c :: rest) || containsSearch needle rest

/-- ASCII lower-casing of one character (the effect of the regex `i`
flag on the escaped pattern). -/
def lowerChar (c : Char) : Char :=
  if 65 ≤ c.toNat ∧ c.toNat ≤ 90 then Char.ofNat (c.toNat + 32) else c

/-- Modelled from the spec: the compiled filter pattern applied to a
title — case-insensitive literal substring containment. -/
def titleMatches (filterText title : String) : Bool :=
  containsSearch (filterText.toList.map lowerChar) (title.toList.map lowerChar)

/-- `filterPattern`: `null` when the debounced filter is empty,
otherwise the case-insensitive pattern built from the escaped text
(no `g` flag, hence a pure test function). -/
def filterPattern (debouncedFilter : String) : Option (String → Bool) :=
  if debouncedFilter.isEmpty then none else some (titleMatches debouncedFilter)

/-- `hasFilter`: some debounced filter text or some selected tags. -/
def hasFilter (debouncedFilter : String) (selectedTags : List FilterTag) : Bool :=
  !debouncedFilter.isEmpty || !selectedTags.isEmpty

/-- `filteredChildren`: the children that match the current pattern and
tags; group markers never match. -/
def filteredChildren (children : List NavNode) (debouncedFilter : String)
    (selectedTags : List FilterTag) : List NavNode :=
  if !(hasFilter debouncedFilter selectedTags) then []
  else
    children.filter fun c =>
      let titleMatch :=
        match filterPattern debouncedFilter with
        | some p => p c.title
        | none => true
      let tagMatch :=
        if !selectedTags.isEmpty then
          match TOPIC_TYPE_TO_TAG c.type with
          | some tg => decide (tg ∈ selectedTags)
          | none => false
        else true
      titleMatch && tagMatch && decide (c.type ≠ TopicType.groupMarker)

/-- `availableTags`: no suggestions while a tag is selected, otherwise
the three labels in `FILTER_TAGS_TO_LABELS` insertion order. -/
def availableTags (selectedTags : List FilterTag) : List String :=
  if !selectedTags.isEmpty then []
  else [FILTER_TAGS_TO_LABELS .sampleCode, FILTER_TAGS_TO_LABELS .tutorials,
        FILTER_TAGS_TO_LABELS .articles]

/-- Worker for `activePathChildren`: the JS loop pops path segments in
order; the candidate pool starts as the whole flat `children` list and
becomes the resolved node's children after each match; an unmatched
segment breaks the loop.  A `childUIDs` entry missing from the map would
fault in JS on the next `find`; `filterMap` is faithful on well-formed
input. -/
def activePathChildrenFrom (children : List NavNode) :
    List String → List NavNode → List NavNode
  | [], _ => []
  | seg :: rest, pool =>
    match pool.find? (fun c => c.path = seg) with
    | none => []
    | some node =>
      node :: activePathChildrenFrom children rest
        (node.childUIDs.filterMap (childrenMap children))

/-- `activePathChildren`: the resolved node chain for the active path. -/
def activePathChildren (children : List NavNode) (activePath : List String) :
    List NavNode :=
  activePathChildrenFrom children activePath children

/-- `activeUID`: uid of the last resolved active-path node, `undefined`
(`none`) when nothing resolved. -/
def activeUID (apc : List NavNode) : Option Nat :=
  apc.getLast?.map (·.uid)

/-- `generateNodesToRender`, as a pure function of its inputs: filters
the flat `children` list down to the nodes to render. -/
def generateNodesToRender (children fc : List NavNode) (hasF : Bool)
    (opens : Finset Nat) : List NavNode :=
  let cm := childrenMap children
  let allChildMatchesList := fc.flatMap (fun m => getParents children m.uid)
  children.filter fun child =>
    if !hasF then
      match child.parent with
      | none => true
      | some q => decide (q ∈ opens)
    else
      (match child.parent with
       | none => decide (child ∈ allChildMatchesList)
       | some _ => false)
      || (match child.parent with
          | none => false
          | some q =>
            decide (q ∈ opens) &&
              (match cm q with
               | some m => decide (m ∈ fc)
               | none => false))
      || decide (child ∈ allChildMatchesList)

/-- `augmentRenderNodes({ uid, include, exclude })`: splice `incl` right
after the node with `uid` (JS `findIndex` yields `-1` and the splice
lands at the front when the uid is not present), or filter out the
`excl` nodes; with both lists empty the list is unchanged. -/
def augmentRenderNodes (nodesToRender : List NavNode) (uid : Nat)
    (incl excl : List NavNode) : List NavNode :=
  if !incl.isEmpty then
    match nodesToRender.findIdx? (fun n => n.uid = uid) with
    | some i => nodesToRender.take (i + 1) ++ incl ++ nodesToRender.drop (i + 1)
    | none => incl ++ nodesToRender
  else if !excl.isEmpty then
    nodesToRender.filter (fun item => !decide (item ∈ excl))
  else nodesToRender

/-- The slice of component state owned by the open-state tracker. -/
structure CardState where
  openNodes : Finset Nat
  nodesToRender : List NavNode
deriving DecidableEq

/-- `toggle(node)`: close an open node (dropping its whole subtree from
`openNodes` and all strict descendants from the render list) or open a
closed one (splicing its immediate children in after it). -/
def toggle (children : List NavNode) (s : CardState) (node : NavNode) : CardState :=
  if node.uid ∈ s.openNodes then
    let allChildren := getAllChildren children node.uid
    { openNodes := s.openNodes \ (uidsOf allChildren).toFinset,
      nodesToRender :=
        augmentRenderNodes s.nodesToRender node.uid [] (allChildren.drop 1) }
  else
    { openNodes := insert node.uid s.openNodes,
      nodesToRender :=
        augmentRenderNodes s.nodesToRender node.uid
          (node.childUIDs.filterMap (childrenMap children)) [] }

/-- `toggleFullTree(node)`: open or close the entire subtree at once. -/
def toggleFullTree (children : List NavNode) (s : CardState) (node : NavNode) :
    CardState :=
  let isOpen := node.uid ∈ s.openNodes
  let allChildren := getAllChildren children node.uid
  let opens :=
    if isOpen then s.openNodes \ (uidsOf allChildren).toFinset
    else s.openNodes ∪ (uidsOf allChildren).toFinset
  if isOpen then
    { openNodes := opens,
      nodesToRender :=
        augmentRenderNodes s.nodesToRender node.uid [] (allChildren.drop 1) }
  else
    { openNodes := opens,
      nodesToRender :=
        augmentRenderNodes s.nodesToRender node.uid (allChildren.drop 1) [] }

/-- The `nodeChangeDeps` tuple observed by the `trackOpenNodes` watcher. -/
structure DepsState where
  filteredChildren : List NavNode
  activePathChildren : List NavNode
  filter : String
  selectedTags : List FilterTag
deriving DecidableEq

/-- The persisted-state snapshot under the `navigator.*` session keys.
`technology = none` models an absent key. -/
structure StorageState where
  technology : Option String
  nodesToRender : List Nat
  filter : String
  openNodes : List Nat
  selectedTags : List FilterTag
deriving DecidableEq

/-- The first-mount guard at the top of `trackOpenNodes`: skip the run
when the watcher fired only because a persisted filter or tag value is
being synced in.  `depsBefore = none` models the `undefined` old value
of the manual call from `restorePersistedState` (whose destructuring
default makes `selectedTagsBefore = []`). -/
def skipGuard (storageFilter : String) (storageTags : List FilterTag)
    (deps : DepsState) (depsBefore : Option DepsState) : Bool :=
  let filterNE :=
    match depsBefore with
    | none => true
    | some db => decide (deps.filter ≠ db.filter)
  let filterBeforeFalsy :=
    match depsBefore with
    | none => true
    | some db => db.filter.isEmpty
  let tagsBefore :=
    match depsBefore with
    | none => ([] : List FilterTag)
    | some db => db.selectedTags
  let tagsNE :=
    decide (String.intercalate "," (deps.selectedTags.map FILTER_TAGS) ≠
      String.intercalate "," (tagsBefore.map FILTER_TAGS))
  (filterNE && filterBeforeFalsy && !storageFilter.isEmpty)
    || (tagsNE && tagsBefore.isEmpty && !storageTags.isEmpty)

/-- The body of `trackOpenNodes` after the guard: decide which nodes are
open (the active-path chain, or all strict ancestors of filter matches),
merge into the previous `openNodes` exactly when the active path
changed, and regenerate the render list.  `pageChange` models the JS
reference inequality `activePathChildrenBefore !== activePathChildren`,
which is true exactly when the active path was recomputed (and on the
first, manual call where the old value is `undefined`). -/
def trackOpenNodesCore (children : List NavNode) (deps : DepsState)
    (pageChange : Bool) (s : CardState) : CardState :=
  let hasF := hasFilter deps.filter deps.selectedTags
  let nodes :=
    if !hasF then deps.activePathChildren
    else deps.filteredChildren.flatMap (fun m => (getParents children m.uid).dropLast)
  let newOpen := (uidsOf nodes).toFinset
  let opens := if pageChange then s.openNodes ∪ newOpen else newOpen
  { openNodes := opens,
    nodesToRender := generateNodesToRender children deps.filteredChildren hasF opens }

/-- `trackOpenNodes`: the guarded watcher handler. -/
def trackOpenNodes (children : List NavNode) (storage : StorageState)
    (deps : DepsState) (depsBefore : Option DepsState) (pageChange : Bool)
    (s : CardState) : CardState :=
  if skipGuard storage.filter storage.selectedTags deps depsBefore then s
  else trackOpenNodesCore children deps pageChange s

/-- The full slice of component data restored on mount. -/
structure CardFullState where
  filter : String
  debouncedFilter : String
  selectedTags : List FilterTag
  openNodes : Finset Nat
  nodesToRender : List NavNode
deriving DecidableEq

/-- The `nodeChangeDeps` value at `created()` time: empty filter, no
tags, the active path freshly resolved. -/
def initialDeps (children : List NavNode) (activePath : List String) : DepsState :=
  { filteredChildren := filteredChildren children "" []
    activePathChildren := activePathChildren children activePath
    filter := ""
    selectedTags := [] }

/-- The fallback taken by `restorePersistedState` when the snapshot is
rejected: a manual `trackOpenNodes(this.nodeChangeDeps)` call with an
`undefined` old value, on the pristine data state. -/
def restoreFallback (children : List NavNode) (activePath : List String)
    (storage : StorageState) : CardFullState :=
  let c := trackOpenNodes children storage (initialDeps children activePath) none true
    { openNodes := ∅, nodesToRender := [] }
  { filter := ""
    debouncedFilter := ""
    selectedTags := []
    openNodes := c.openNodes
    nodesToRender := c.nodesToRender }

/-- `restorePersistedState`: accept the persisted snapshot only when it
is not the empty-cache shape, the stored technology matches, and every
stored render uid resolves in the current `childrenMap`; otherwise fall
back to recomputing from the active path. -/
def restorePersistedState (children : List NavNode) (technology : String)
    (activePath : List String) (storage : StorageState) : CardFullState :=
  let cm := childrenMap children
  if storage.nodesToRender.isEmpty && storage.filter.isEmpty then
    restoreFallback children activePath storage
  else
    let allNodesMatch := storage.nodesToRender.all (fun uid => (cm uid).isSome)
    if storage.technology ≠ some technology || !allNodesMatch then
      restoreFallback children activePath storage
    else
      { filter := storage.filter
        debouncedFilter := storage.filter
        selectedTags := storage.selectedTags
        openNodes := storage.openNodes.toFinset
        nodesToRender := storage.nodesToRender.filterMap cm }

/-- A user toggle gesture: plain toggle or alt-click full-subtree toggle. -/
inductive NavOp where
  | tog (n : NavNode)
  | togFull (n : NavNode)
deriving DecidableEq

/-- The node a gesture acts on. -/
def NavOp.node : NavOp → NavNode
  | .tog n => n
  | .togFull n => n

/-- Apply one toggle gesture. -/
def applyOp (children : List NavNode) (s : CardState) : NavOp → CardState
  | .tog n => toggle children s n
  | .togFull n => toggleFullTree children s n

/-- Apply a sequence of toggle gestures, left to right. -/
def applyOps (children : List NavNode) (s : CardState) (ops : List NavOp) : CardState :=
  ops.foldl (applyOp children) s

/-- A gesture sequence is valid when every gesture acts on a node that
is rendered at the moment it fires (the UI only emits toggle events for
rendered items). -/
def validOps (children : List NavNode) : CardState → List NavOp → Bool
  | _, [] => true
  | s, op :: rest =>
    decide (op.node ∈ s.nodesToRender) &&
      validOps children (applyOp children s op) rest

/-- The flat-tree layout invariant: `FlatForest p us l` states that the
flat list `l` is the depth-first preorder flattening of a forest whose
roots have uids `us` (in order) and whose top-level parent sentinel is
`p`, with `parent` and `childUIDs` links exactly matching the
structure. -/
inductive FlatForest : Option Nat → List Nat → List NavNode → Prop where
  | nil (p : Option Nat) : FlatForest p [] []
  | cons (p : Option Nat) (n : NavNode) (us : List Nat) (sub rest : List NavNode) :
      n.parent = p →
      FlatForest (some n.uid) n.childUIDs sub →
      FlatForest p us rest →
      FlatForest p (n.uid :: us) (n :: (sub ++ rest))

/-- The unfiltered visibility test: a node is rendered when its parent
is the root sentinel or is open. -/
def visPred (opens : Finset Nat) (c : NavNode) : Bool :=
  match c.parent with
  | none => true
  | some q => decide (q ∈ opens)

/-- The unfiltered visible set: children whose parent is the root
sentinel or is open.  `generateNodesToRender` computes exactly this when
no filter is active. -/
def visU (children : List NavNode) (opens : Finset Nat) : List NavNode :=
  children.filter (visPred opens)

/-- Parent-closedness of an open set: every open uid belongs to a node
of the collection whose parent is the root sentinel or itself open.
This holds for every state the tracker reaches through top-level
navigation and toggling. -/
def WFopen (children : List NavNode) (opens : Finset Nat) : Prop :=
  ∀ u ∈ opens, ∃ m ∈ children, m.uid = u ∧
    (m.parent = none ∨ ∃ q, m.parent = some q ∧ q ∈ opens)

/-- Every open uid resolves in the collection (the claim-C7 invariant). -/
def OpenOK (children : List NavNode) (opens : Finset Nat) : Prop :=
  ∀ u ∈ opens, ∃ m ∈ children, m.uid = u

/-- The patch/recompute coupling invariant of the unfiltered tracker
state: the open set is parent-closed and the render list is exactly the
unfiltered recompute. -/
def TrackerInv (children : List NavNode) (s : CardState) : Prop :=
  WFopen children s.openNodes ∧ s.nodesToRender = visU children s.openNodes

/-- Ancestor-or-self reachability through `parent` links resolved in a
lookup map: the declarative counterpart of `getParents`. -/
inductive AncestorOf (cm : Nat → Option NavNode) : NavNode → NavNode → Prop where
  | refl (n : NavNode) : AncestorOf cm n n
  | step (a p d : NavNode) (q : Nat) :
      d.parent = some q → cm q = some p → AncestorOf cm a p → AncestorOf cm a d

/-- Position of a uid in the flat list (used as the termination measure
for walking `parent` links: in preorder a parent precedes its children). -/
def posOf (children : List NavNode) (u : Nat) : Nat :=
  children.findIdx (fun c => c.uid = u)

/-- An empty persisted-state store (all keys absent / defaulted). -/
def emptyStorage : StorageState := ⟨none, [], "", [], []⟩

/- Concrete collections used by witnesses and counterexamples. -/

/-- Scenario tree of the spec: top level `A(1)`, `B(2)` with child `C(3)`. -/
def scA : NavNode := ⟨1, "A", "a", .article, none, []⟩

/-- See `scA`. -/
def scB : NavNode := ⟨2, "B", "b", .article, none, [3]⟩

/-- See `scA`. -/
def scC : NavNode := ⟨3, "C", "b/c", .article, some 2, []⟩

/-- See `scA`. -/
def scenarioChildren : List NavNode := [scA, scB, scC]

/-- Filtered-mode tree: `fA(1)` with child `fB(2)`, only `fB` matches
the filter text `"match"`. -/
def fA : NavNode := ⟨1, "Alpha", "a", .article, none, [2]⟩

/-- See `fA`. -/
def fB : NavNode := ⟨2, "B match", "a/b", .article, some 1, []⟩

/-- See `fA`. -/
def fChildren : List NavNode := [fA, fB]

/-- Tree where a filter match (`gA`) is an ancestor of another match
(`gC`) and also has a non-matching child (`gB`). -/
def gA : NavNode := ⟨1, "x match", "a", .article, none, [2, 3]⟩

/-- See `gA`. -/
def gB : NavNode := ⟨2, "beta", "a/b", .article, some 1, []⟩

/-- See `gA`. -/
def gC : NavNode := ⟨3, "y match", "a/c", .article, some 1, []⟩

/-- See `gA`. -/
def gChildren : List NavNode := [gA, gB, gC]

/-- A three-deep chain `hN(1) → hC(2) → hG(3)`. -/
def hN : NavNode := ⟨1, "N", "n", .article, none, [2]⟩

/-- See `hN`. -/
def hC : NavNode := ⟨2, "C", "n/c", .article, some 1, [3]⟩

/-- See `hN`. -/
def hG : NavNode := ⟨3, "G", "n/c/g", .article, some 2, []⟩

/-- See `hN`. -/
def hChildren : List NavNode := [hN, hC, hG]

/-- Tree whose active path resolves to a non-top-level node when the
first segment is searched in the whole flat list: `oP(1)` has children
`oQ(2)` (itself with child `oR(3)`) and `oS(4)`. -/
def oP : NavNode := ⟨1, "P", "p", .article, none, [2, 4]⟩

/-- See `oP`. -/
def oQ : NavNode := ⟨2, "Q", "q", .article, some 1, [3]⟩

/-- See `oP`. -/
def oR : NavNode := ⟨3, "R", "q/r", .article, some 2, []⟩

/-- See `oP`. -/
def oS : NavNode := ⟨4, "S", "s", .article, some 1, []⟩

/-- See `oP`. -/
def oChildren : List NavNode := [oP, oQ, oR, oS]

/-- The state reached on `oChildren` by mounting with active path `["q"]`
(no persisted snapshot, so the restore falls back to navigation
tracking) and then toggling the rendered root `oP`: OpenNodes `{1, 2}`
and VisibleList `[oP, oQ, oS, oR]`, out of document order. -/
def oMountToggled : CardState :=
  toggle oChildren
    ⟨(restorePersistedState oChildren "t" ["q"] emptyStorage).openNodes,
     (restorePersistedState oChildren "t" ["q"] emptyStorage).nodesToRender⟩ oP

/-- Tree with a hidden parent: top level `tA(1)` and `tB(2)`; `tB`'s
child `tC(3)` has child `tD(4)`. -/
def tA : NavNode := ⟨1, "A", "a", .article, none, []⟩

/-- See `tA`. -/
def tB : NavNode := ⟨2, "B", "b", .article, none, [3]⟩

/-- See `tA`. -/
def tC : NavNode := ⟨3, "C", "b/c", .article, some 2, [4]⟩

/-- See `tA`. -/
def tD : NavNode := ⟨4, "D", "b/c/d", .article, some 3, []⟩

/-- See `tA`. -/
def tChildren : List NavNode := [tA, tB, tC, tD]

/-! ### Basic lemmas about the flat collection -/

theorem uidsOf_cons (n : NavNode) (l : List NavNode) :
    uidsOf (n :: l) = n.uid :: uidsOf l := rfl

theorem uidsOf_append (a b : List NavNode) :
    uidsOf (a ++ b) = uidsOf a ++ uidsOf b := by
  simp [uidsOf]

theorem mem_uidsOf {u : Nat} {l : List NavNode} :
    u ∈ uidsOf l ↔ ∃ c ∈ l, c.uid = u := by
  simp [uidsOf, eq_comm]

theorem uid_inj {children : List NavNode} (hU : (uidsOf children).Nodup)
    {a b : NavNode} (ha : a ∈ children) (hb : b ∈ children)
    (h : a.uid = b.uid) : a = b :=
  List.inj_on_of_nodup_map hU ha hb h

theorem childrenMap_some {children : List NavNode} {u : Nat} {n : NavNode}
    (h : childrenMap children u = some n) : n ∈ children ∧ n.uid = u := by
  refine ⟨List.mem_of_find?_eq_some h, ?_⟩
  have := List.find?_some h
  simpa using this

theorem childrenMap_self {children : List NavNode}
    (hU : (uidsOf children).Nodup) {n : NavNode} (hn : n ∈ children) :
    childrenMap children n.uid = some n := by
  cases h : childrenMap children n.uid with
  | none =>
    exfalso
    have := List.find?_eq_none.mp h n hn
    simp at this
  | some m =>
    obtain ⟨hm, hu⟩ := childrenMap_some h
    rw [uid_inj hU hm hn hu]

theorem findIdx_append_cons {α : Type} (p : α → Bool) (l1 l2 : List α) (y : α)
    (h1 : ∀ x ∈ l1, p x = false) (hy : p y = true) :
    List.findIdx p (l1 ++ y :: l2) = l1.length := by
  induction l1 with
  | nil => simp [List.findIdx_cons, hy]
  | cons a l ih =>
    have ha := h1 a (by simp)
    simp only [List.cons_append, List.findIdx_cons, ha, cond_false]
    rw [ih (fun x hx => h1 x (by simp [hx]))]
    simp

theorem findIdx?_append_cons {α : Type} (p : α → Bool) (l1 l2 : List α) (y : α)
    (h1 : ∀ x ∈ l1, p x = false) (hy : p y = true) :
    List.findIdx? p (l1 ++ y :: l2) = some l1.length := by
  induction l1 with
  | nil => simp [List.findIdx?_cons, hy]
  | cons a l ih =>
    have ha := h1 a (by simp)
    simp only [List.cons_append, List.findIdx?_cons, ha, if_false]
    rw [List.findIdx?_succ, ih (fun x hx => h1 x (by simp [hx]))]
    simp

/-! ### Structural lemmas about the flat-tree invariant -/

theorem FlatForest.parent_shape {p : Option Nat} {us : List Nat} {l : List NavNode}
    (h : FlatForest p us l) :
    ∀ c ∈ l, c.parent = p ∨ ∃ q, c.parent = some q ∧ q ∈ uidsOf l := by
  induction h with
  | nil => simp
  | cons p n us sub rest hpar hsub hrest ihsub ihrest =>
    intro c hc
    rw [List.mem_cons, List.mem_append] at hc
    rcases hc with hc | hc | hc
    · subst hc; exact Or.inl hpar
    · rcases ihsub c hc with h1 | ⟨q, hq, hql⟩
      · exact Or.inr ⟨n.uid, h1, by simp [uidsOf_cons]⟩
      · exact Or.inr ⟨q, hq, by simp [uidsOf_cons, uidsOf_append]; tauto⟩
    · rcases ihrest c hc with h1 | ⟨q, hq, hql⟩
      · exact Or.inl h1
      · exact Or.inr ⟨q, hq, by simp [uidsOf_cons, uidsOf_append]; tauto⟩

theorem FlatForest.nodup_pieces {n : NavNode} {sub rest : List NavNode}
    (hU : (uidsOf (n :: (sub ++ rest))).Nodup) :
    n.uid ∉ uidsOf sub ∧ n.uid ∉ uidsOf rest ∧ (uidsOf sub).Nodup ∧
      (uidsOf rest).Nodup ∧ (uidsOf sub).Disjoint (uidsOf rest) := by
  rw [uidsOf_cons, uidsOf_append, List.nodup_cons, List.nodup_append] at hU
  obtain ⟨hn, h1, h2, h3⟩ := hU
  simp only [List.mem_append] at hn
  exact ⟨fun h => hn (Or.inl h), fun h => hn (Or.inr h), h1, h2, h3⟩

theorem FlatForest.no_self_parent {p : Option Nat} {us : List Nat}
    {l : List NavNode} (h : FlatForest p us l)
    (hU : (uidsOf l).Nodup) (hp : ∀ pu, p = some pu → pu ∉ uidsOf l) :
    ∀ c ∈ l, c.parent ≠ some c.uid := by
  induction h with
  | nil => simp
  | cons p n us sub rest hpar hsub hrest ihsub ihrest =>
    obtain ⟨hns, hnr, hsN, hrN, hdisj⟩ := FlatForest.nodup_pieces hU
    intro c hc
    rw [List.mem_cons, List.mem_append] at hc
    rcases hc with hc | hc | hc
    · subst hc
      intro hcon
      refine hp c.uid (hpar ▸ hcon) ?_
      simp [uidsOf_cons]
    · refine ihsub hsN ?_ c hc
      rintro pu ⟨rfl⟩
      exact hns
    · refine ihrest hrN ?_ c hc
      intro pu hpu hmem
      refine hp pu hpu ?_
      simp only [uidsOf_cons, uidsOf_append, List.mem_cons, List.mem_append]
      tauto

theorem FlatForest.decomp {p : Option Nat} {us : List Nat} {l : List NavNode}
    (h : FlatForest p us l) (hU : (uidsOf l).Nodup)
    (hp : ∀ pu, p = some pu → pu ∉ uidsOf l) :
    ∀ n ∈ l, ∃ pre sub post, l = pre ++ n :: sub ++ post ∧
      FlatForest (some n.uid) n.childUIDs sub ∧
      (∀ c, c ∈ pre ∨ c ∈ post → ∀ q, c.parent = some q → q ∉ uidsOf (n :: sub)) ∧
      (∀ q, n.parent = some q → q ∉ uidsOf (n :: sub)) := by
  induction h with
  | nil => simp
  | cons p m us sub0 rest hpar hsub hrest ihsub ihrest =>
    obtain ⟨hms, hmr, hsN, hrN, hdisj⟩ := FlatForest.nodup_pieces hU
    have hpl : ∀ pu, p = some pu →
        pu ∉ uidsOf (m :: (sub0 ++ rest)) := hp
    have hpl2 : ∀ pu, p = some pu →
        pu ≠ m.uid ∧ pu ∉ uidsOf sub0 ∧ pu ∉ uidsOf rest := by
      intro pu hpu
      have := hpl pu hpu
      simp only [uidsOf_cons, uidsOf_append, List.mem_cons, List.mem_append] at this
      push_neg at this
      exact this
    intro n hn
    rw [List.mem_cons, List.mem_append] at hn
    rcases hn with hn | hn | hn
    · subst hn
      refine ⟨[], sub0, rest, by simp, hsub, ?_, ?_⟩
      · rintro c (hc | hc) q hq hmem
        · simp at hc
        · rcases hrest.parent_shape c hc with h1 | ⟨q2, hq2, hql⟩
          · rw [hq] at h1
            obtain ⟨ha, hb, hcx⟩ := hpl2 q h1.symm
            rw [uidsOf_cons, List.mem_cons] at hmem
            tauto
          · rw [hq2] at hq
            injection hq with hq
            subst hq
            rw [uidsOf_cons, List.mem_cons] at hmem
            rcases hmem with h2 | h2
            · exact hmr (h2 ▸ hql)
            · exact hdisj h2 hql
      · intro q hq hmem
        rw [hpar] at hq
        obtain ⟨ha, hb, hcx⟩ := hpl2 q hq
        rw [uidsOf_cons, List.mem_cons] at hmem
        tauto
    · obtain ⟨pre1, sub, post1, heq, hder, hclos, hself⟩ :=
        ihsub hsN (by rintro pu ⟨rfl⟩; exact hms) n hn
      have hsubset : ∀ q, q ∈ uidsOf (n :: sub) → q ∈ uidsOf sub0 := by
        intro q hq
        rw [heq]
        simp only [uidsOf, List.map_append, List.map_cons, List.mem_append,
          List.mem_cons] at hq ⊢
        tauto
      refine ⟨m :: pre1, sub, post1 ++ rest, ?_, hder, ?_, hself⟩
      · rw [heq]; simp
      · rintro c (hc | hc) q hq hmem
        · rcases List.mem_cons.mp hc with h2 | h2
          · subst h2
            rw [hpar] at hq
            obtain ⟨ha, hb, hcx⟩ := hpl2 q hq
            exact hb (hsubset q hmem)
          · exact hclos c (Or.inl h2) q hq hmem
        · rcases List.mem_append.mp hc with h2 | h2
          · exact hclos c (Or.inr h2) q hq hmem
          · rcases hrest.parent_shape c h2 with h1 | ⟨q2, hq2, hql⟩
            · rw [hq] at h1
              obtain ⟨ha, hb, hcx⟩ := hpl2 q h1.symm
              exact hb (hsubset q hmem)
            · rw [hq2] at hq
              injection hq with hq
              subst hq
              exact hdisj (hsubset q2 hmem) hql
    · obtain ⟨pre1, sub, post1, heq, hder, hclos, hself⟩ :=
        ihrest hrN (fun pu hpu => (hpl2 pu hpu).2.2) n hn
      have hsubset : ∀ q, q ∈ uidsOf (n :: sub) → q ∈ uidsOf rest := by
        intro q hq
        rw [heq]
        simp only [uidsOf, List.map_append, List.map_cons, List.mem_append,
          List.mem_cons] at hq ⊢
        tauto
      refine ⟨m :: sub0 ++ pre1, sub, post1, ?_, hder, ?_, hself⟩
      · rw [heq]; simp
      · rintro c (hc | hc) q hq hmem
        · rcases List.mem_cons.mp hc with h2 | h2
          · subst h2
            rw [hpar] at hq
            obtain ⟨ha, hb, hcx⟩ := hpl2 q hq
            exact hcx (hsubset q hmem)
          · rcases List.mem_append.mp h2 with h3 | h3
            · rcases hsub.parent_shape c h3 with h1 | ⟨q2, hq2, hql⟩
              · rw [hq] at h1
                injection h1 with h1
                exact hmr (h1 ▸ hsubset q hmem)
              · rw [hq2] at hq
                injection hq with hq
                subst hq
                exact hdisj hql (hsubset q2 hmem)
            · exact hclos c (Or.inl h3) q hq hmem
        · exact hclos c (Or.inr hc) q hq hmem

theorem FlatForest.dead {children : List NavNode} {opens : Finset Nat}
    (hWF : WFopen children opens) (hU : (uidsOf children).Nodup)
    {p : Option Nat} {us : List Nat} {l : List NavNode} (h : FlatForest p us l)
    (hsubset : ∀ c ∈ l, c ∈ children)
    (hr : ∃ r, p = some r ∧ r ∉ opens) :
    ∀ c ∈ l, c.uid ∉ opens := by
  induction h with
  | nil => simp
  | cons p n us sub rest hpar hsub hrest ihsub ihrest =>
    obtain ⟨r, rfl, hro⟩ := hr
    have hnchild : n ∈ children := hsubset n (by simp)
    have hnopen : n.uid ∉ opens := by
      intro hin
      obtain ⟨m, hm, hmu, hok⟩ := hWF n.uid hin
      have hmn : m = n := uid_inj hU hm hnchild hmu
      subst hmn
      rcases hok with h1 | ⟨q, hq, hqo⟩
      · rw [hpar] at h1; cases h1
      · rw [hpar] at hq
        injection hq with hq
        exact hro (hq ▸ hqo)
    intro c hc
    rw [List.mem_cons, List.mem_append] at hc
    rcases hc with hc | hc | hc
    · exact hc ▸ hnopen
    · exact ihsub (fun c hc => hsubset c (by simp [hc])) ⟨n.uid, rfl, hnopen⟩ c hc
    · exact ihrest (fun c hc => hsubset c (by simp [hc])) ⟨r, rfl, hro⟩ c hc

theorem FlatForest.roots_eq {children : List NavNode}
    (hU : (uidsOf children).Nodup)
    {p : Option Nat} {us : List Nat} {l : List NavNode} (h : FlatForest p us l) :
    ∀ r, p = some r → (∀ c ∈ l, c ∈ children) → r ∉ uidsOf l →
    l.filter (fun c => c.parent = some r) = us.filterMap (childrenMap children) := by
  induction h with
  | nil => simp
  | cons p n us sub rest hpar hsub hrest ihsub ihrest =>
    intro r hpr hsubset hrl
    subst hpr
    have hrn : r ≠ n.uid := by
      intro hcon
      exact hrl (by simp [uidsOf_cons, hcon])
    have hrsub : r ∉ uidsOf sub := by
      intro hcon
      refine hrl ?_
      simp only [uidsOf_cons, uidsOf_append, List.mem_cons, List.mem_append]
      tauto
    have hrrest : r ∉ uidsOf rest := by
      intro hcon
      refine hrl ?_
      simp only [uidsOf_cons, uidsOf_append, List.mem_cons, List.mem_append]
      tauto
    have hnchild : n ∈ children := hsubset n (by simp)
    have hsubdead : sub.filter (fun c => c.parent = some r) = [] := by
      rw [List.filter_eq_nil_iff]
      intro c hc
      rcases hsub.parent_shape c hc with h1 | ⟨q, hq, hql⟩
      · simp only [h1, decide_eq_true_eq, Option.some_inj]
        intro hcon
        exact hrn hcon.symm
      · simp only [hq, decide_eq_true_eq, Option.some_inj]
        intro hcon
        exact hrsub (hcon ▸ hql)
    have hrest := ihrest r rfl (fun c hc => hsubset c (by simp [hc])) hrrest
    rw [List.filter_cons, List.filter_append, hsubdead, hrest]
    have hkeep : (decide (n.parent = some r)) = true := by simp [hpar]
    rw [hkeep]
    simp [List.filterMap_cons, childrenMap_self hU hnchild]

theorem FlatForest.split_blocks {children : List NavNode}
    (hU : (uidsOf children).Nodup)
    {p : Option Nat} {us : List Nat} {l : List NavNode} (h : FlatForest p us l)
    (hsubset : ∀ c ∈ l, c ∈ children) :
    ∃ fs : List (List NavNode), l = fs.flatten ∧
      List.Forall₂ (fun (u : Nat) (f : List NavNode) =>
        ∃ n sub, childrenMap children u = some n ∧ f = n :: sub ∧
          FlatForest (some u) n.childUIDs sub ∧ (∀ c ∈ f, c ∈ children)) us fs := by
  induction h with
  | nil => exact ⟨[], by simp, List.Forall₂.nil⟩
  | cons p n us sub rest hpar hsub hrest ihsub ihrest =>
    obtain ⟨fs, heq, hF⟩ := ihrest (fun c hc => hsubset c (by simp [hc]))
    have hnchild : n ∈ children := hsubset n (by simp)
    refine ⟨(n :: sub) :: fs, by simp [List.flatten_cons, heq], ?_⟩
    refine List.Forall₂.cons ⟨n, sub, childrenMap_self hU hnchild, rfl, hsub, ?_⟩ hF
    intro c hc
    rcases List.mem_cons.mp hc with hc | hc
    · exact hc ▸ hnchild
    · exact hsubset c (by simp [hc])

theorem getAllChildrenFuel_spec {children : List NavNode}
    (hU : (uidsOf children).Nodup) :
    ∀ (fuel : Nat) (us : List Nat) (fs : List (List NavNode)),
      List.Forall₂ (fun (u : Nat) (f : List NavNode) =>
        ∃ n sub, childrenMap children u = some n ∧ f = n :: sub ∧
          FlatForest (some u) n.childUIDs sub ∧ (∀ c ∈ f, c ∈ children)) us fs →
      (fs.map List.length).sum ≤ fuel →
      getAllChildrenFuel (childrenMap children) fuel us = fs.flatten := by
  intro fuel
  induction fuel with
  | zero =>
    intro us fs hF hsum
    cases hF with
    | nil => simp [getAllChildrenFuel]
    | cons hx hrest =>
      obtain ⟨n, sub, hcm, rfl, hder, hsubc⟩ := hx
      simp at hsum
  | succ k ih =>
    intro us fs hF hsum
    cases hF with
    | nil => simp [getAllChildrenFuel]
    | @cons u f us2 fs2 hx hrest =>
      obtain ⟨n, sub, hcm, rfl, hder, hsubc⟩ := hx
      obtain ⟨cfs, hceq, hcF⟩ :=
        hder.split_blocks hU (fun c hc => hsubc c (by simp [hc]))
      have hF2 : List.Forall₂ (fun (u : Nat) (f : List NavNode) =>
          ∃ n sub, childrenMap children u = some n ∧ f = n :: sub ∧
            FlatForest (some u) n.childUIDs sub ∧ (∀ c ∈ f, c ∈ children))
          (n.childUIDs ++ us2) (cfs ++ fs2) := by
        have := List.rel_append hcF hrest
        simpa using this
      have hsum2 : ((cfs ++ fs2).map List.length).sum ≤ k := by
        have hlen : (cfs.map List.length).sum = sub.length := by
          rw [← List.length_flatten, ← hceq]
        simp only [List.map_append, List.sum_append, hlen]
        simp only [List.map_cons, List.sum_cons, List.length_cons] at hsum
        omega
      show getAllChildrenFuel (childrenMap children) (k + 1) (u :: us2) = _
      rw [getAllChildrenFuel, hcm]
      show n :: getAllChildrenFuel (childrenMap children) k (n.childUIDs ++ us2) = _
      rw [ih _ _ hF2 hsum2]
      simp [hceq, List.flatten_cons]

theorem getAllChildren_eq {children : List NavNode}
    (HU : (uidsOf children).Nodup)
    {n : NavNode} {pre sub post : List NavNode}
    (heq : children = pre ++ n :: sub ++ post)
    (hder : FlatForest (some n.uid) n.childUIDs sub) :
    getAllChildren children n.uid = n :: sub := by
  have hnc : n ∈ children := by rw [heq]; simp
  have hsubc : ∀ c ∈ n :: sub, c ∈ children := by
    intro c hc
    rw [heq]
    rcases List.mem_cons.mp hc with hc | hc
    · simp [hc]
    · simp [hc]
  have hF : List.Forall₂ (fun (u : Nat) (f : List NavNode) =>
      ∃ m s2, childrenMap children u = some m ∧ f = m :: s2 ∧
        FlatForest (some u) m.childUIDs s2 ∧ (∀ c ∈ f, c ∈ children))
      [n.uid] [n :: sub] :=
    List.Forall₂.cons ⟨n, sub, childrenMap_self HU hnc, rfl, hder, hsubc⟩
      List.Forall₂.nil
  have hlen : (n :: sub).length ≤ children.length + 1 := by
    rw [heq]
    simp
    omega
  have := getAllChildrenFuel_spec HU (children.length + 1) [n.uid] [n :: sub] hF
    (by simpa using hlen)
  simpa [getAllChildren] using this

theorem posOf_eq {children : List NavNode} (hU : (uidsOf children).Nodup)
    {c : NavNode} {l1 l2 : List NavNode} (heq : children = l1 ++ c :: l2) :
    posOf children c.uid = l1.length := by
  subst heq
  refine findIdx_append_cons _ _ _ _ ?_ (by simp)
  intro x hx
  simp only [decide_eq_false_iff_not]
  intro hcon
  rw [uidsOf_append, uidsOf_cons, List.nodup_append] at hU
  refine hU.2.2 ?_ (show c.uid ∈ c.uid :: uidsOf l2 by simp)
  rw [← hcon]
  exact List.mem_map_of_mem _ hx

theorem posOf_lt_length {children : List NavNode}
    {d : NavNode} (hd : d ∈ children) (hU : (uidsOf children).Nodup) :
    posOf children d.uid < children.length := by
  obtain ⟨s, t, heq⟩ := List.append_of_mem hd
  rw [posOf_eq hU heq, heq]
  simp

theorem parent_resolves {children : List NavNode} {rus : List Nat}
    (HF : FlatForest none rus children)
    {c : NavNode} (hc : c ∈ children) {q : Nat} (hq : c.parent = some q) :
    ∃ m ∈ children, m.uid = q := by
  rcases HF.parent_shape c hc with h1 | ⟨q2, hq2, hql⟩
  · rw [hq] at h1; cases h1
  · rw [hq2] at hq
    injection hq with hq
    subst hq
    exact mem_uidsOf.mp hql

theorem getParentsFuel_none {cm : Nat → Option NavNode} {fuel u : Nat}
    (hcm : cm u = none) : getParentsFuel cm (fuel + 1) u = [] := by
  simp [getParentsFuel, hcm]

theorem getParentsFuel_root {cm : Nat → Option NavNode} {fuel u : Nat}
    {obj : NavNode} (hcm : cm u = some obj) (hp : obj.parent = none) :
    getParentsFuel cm (fuel + 1) u = [obj] := by
  simp [getParentsFuel, hcm, hp]

theorem getParentsFuel_step {cm : Nat → Option NavNode} {fuel u q : Nat}
    {obj : NavNode} (hcm : cm u = some obj) (hp : obj.parent = some q) :
    getParentsFuel cm (fuel + 1) u = getParentsFuel cm fuel q ++ [obj] := by
  simp [getParentsFuel, hcm, hp]

theorem getAllChildrenFuel_cons {cm : Nat → Option NavNode} {fuel u : Nat}
    {rest : List Nat} {obj : NavNode} (hcm : cm u = some obj) :
    getAllChildrenFuel cm (fuel + 1) (u :: rest) =
      obj :: getAllChildrenFuel cm fuel (obj.childUIDs ++ rest) := by
  simp [getAllChildrenFuel, hcm]

theorem AncestorOf.inv {cm : Nat → Option NavNode} {a d : NavNode}
    (h : AncestorOf cm a d) :
    a = d ∨ ∃ q p, d.parent = some q ∧ cm q = some p ∧ AncestorOf cm a p := by
  cases h with
  | refl => exact Or.inl rfl
  | step => exact Or.inr ⟨_, _, by assumption, by assumption, by assumption⟩

theorem parent_pos_lt {children : List NavNode} {rus : List Nat}
    (HF : FlatForest none rus children) (HU : (uidsOf children).Nodup)
    {c m : NavNode} (hc : c ∈ children) (hm : m ∈ children)
    (hq : c.parent = some m.uid) :
    posOf children m.uid < posOf children c.uid := by
  obtain ⟨pre, sub, post, heq, hder, hclos, hself⟩ :=
    HF.decomp HU (by simp) m hm
  have hcsub : c ∈ sub := by
    have hc2 := heq ▸ hc
    simp only [List.mem_append, List.mem_cons] at hc2
    rcases hc2 with (h1 | h2 | h3) | h4
    · exact absurd (show m.uid ∈ uidsOf (m :: sub) by simp [uidsOf_cons])
        (hclos c (Or.inl h1) m.uid hq)
    · exact absurd (show m.uid ∈ uidsOf (m :: sub) by simp [uidsOf_cons])
        (hself m.uid (h2 ▸ hq))
    · exact h3
    · exact absurd (show m.uid ∈ uidsOf (m :: sub) by simp [uidsOf_cons])
        (hclos c (Or.inr h4) m.uid hq)
  obtain ⟨s1, s2, hseq⟩ := List.append_of_mem hcsub
  have heqm : children = pre ++ m :: (sub ++ post) := by rw [heq]; simp
  have heqc : children = (pre ++ m :: s1) ++ c :: (s2 ++ post) := by
    rw [heq, hseq]; simp
  rw [posOf_eq HU heqm, posOf_eq HU heqc]
  simp only [List.length_append, List.length_cons]
  omega

theorem getParents_spec_aux {children : List NavNode} {rus : List Nat}
    (HF : FlatForest none rus children) (HU : (uidsOf children).Nodup) :
    ∀ k, ∀ d ∈ children, posOf children d.uid < k →
      ∀ fuel, posOf children d.uid < fuel →
      ∃ anc, getParentsFuel (childrenMap children) fuel d.uid = anc ++ [d] ∧
        (∀ a ∈ anc, a ∈ children ∧ posOf children a.uid < posOf children d.uid) ∧
        (∀ a, a ∈ anc ++ [d] ↔ AncestorOf (childrenMap children) a d) := by
  intro k
  induction k with
  | zero => intro d _ h; omega
  | succ k ih =>
    intro d hd hdk fuel hfuel
    cases fuel with
    | zero => omega
    | succ f =>
      have hcmd : childrenMap children d.uid = some d := childrenMap_self HU hd
      cases hpd : d.parent with
      | none =>
        refine ⟨[], ?_, by simp, ?_⟩
        · rw [getParentsFuel_root hcmd hpd]; simp
        · intro a
          simp only [List.nil_append, List.mem_singleton]
          constructor
          · rintro rfl; exact AncestorOf.refl a
          · intro hx
            rcases hx.inv with h1 | ⟨q, p, hq, _, _⟩
            · exact h1
            · rw [hpd] at hq; cases hq
      | some q =>
        obtain ⟨m, hm, hmq⟩ := parent_resolves HF hd hpd
        subst hmq
        have hcmq : childrenMap children m.uid = some m := childrenMap_self HU hm
        have hpos : posOf children m.uid < posOf children d.uid :=
          parent_pos_lt HF HU hd hm hpd
        obtain ⟨ancM, hM, hprops, hiff⟩ := ih m hm (by omega) f (by omega)
        refine ⟨ancM ++ [m], ?_, ?_, ?_⟩
        · rw [getParentsFuel_step hcmd hpd, hM]
        · intro a ha
          rcases List.mem_append.mp ha with h1 | h2
          · obtain ⟨hac, hap⟩ := hprops a h1
            exact ⟨hac, by omega⟩
          · rw [List.mem_singleton] at h2
            subst h2
            exact ⟨hm, hpos⟩
        · intro a
          constructor
          · intro ha
            rcases List.mem_append.mp ha with h1 | h2
            · exact AncestorOf.step a m d m.uid hpd hcmq ((hiff a).mp h1)
            · rw [List.mem_singleton] at h2
              subst h2
              exact AncestorOf.refl a
          · intro hx
            rcases hx.inv with h1 | ⟨q2, p2, hq2, hcm2, hanc⟩
            · subst h1; simp
            · rw [hpd] at hq2
              injection hq2 with hq2
              subst hq2
              rw [hcmq] at hcm2
              injection hcm2 with hcm2
              subst hcm2
              rw [List.mem_append]
              exact Or.inl ((hiff a).mpr hanc)

theorem getParents_spec {children : List NavNode} {rus : List Nat}
    (HF : FlatForest none rus children) (HU : (uidsOf children).Nodup)
    {d : NavNode} (hd : d ∈ children) :
    ∃ anc, getParents children d.uid = anc ++ [d] ∧
      (∀ a ∈ anc, a ∈ children ∧ posOf children a.uid < posOf children d.uid) ∧
      (∀ a, a ∈ anc ++ [d] ↔ AncestorOf (childrenMap children) a d) :=
  getParents_spec_aux HF HU (posOf children d.uid + 1) d hd (by omega)
    children.length (posOf_lt_length hd HU)

theorem mem_getParents_iff {children : List NavNode} {rus : List Nat}
    (HF : FlatForest none rus children) (HU : (uidsOf children).Nodup)
    {d : NavNode} (hd : d ∈ children) (a : NavNode) :
    a ∈ getParents children d.uid ↔ AncestorOf (childrenMap children) a d := by
  obtain ⟨anc, heq, _, hiff⟩ := getParents_spec HF HU hd
  rw [heq]
  exact hiff a

theorem mem_getParents_dropLast_iff {children : List NavNode} {rus : List Nat}
    (HF : FlatForest none rus children) (HU : (uidsOf children).Nodup)
    {d : NavNode} (hd : d ∈ children) (a : NavNode) :
    a ∈ (getParents children d.uid).dropLast ↔
      AncestorOf (childrenMap children) a d ∧ a ≠ d := by
  obtain ⟨anc, heq, hprops, hiff⟩ := getParents_spec HF HU hd
  rw [heq, List.dropLast_concat]
  constructor
  · intro ha
    refine ⟨(hiff a).mp (by simp [ha]), ?_⟩
    intro hcon
    subst hcon
    obtain ⟨_, hlt⟩ := hprops a ha
    omega
  · rintro ⟨hanc, hne⟩
    have := (hiff a).mpr hanc
    rcases List.mem_append.mp this with h1 | h2
    · exact h1
    · rw [List.mem_singleton] at h2
      exact absurd h2 hne

theorem getParentsFuel_subset {children : List NavNode} :
    ∀ fuel u a, a ∈ getParentsFuel (childrenMap children) fuel u →
      a ∈ children := by
  intro fuel
  induction fuel with
  | zero => simp [getParentsFuel]
  | succ f ih =>
    intro u a ha
    cases hcm : childrenMap children u with
    | none =>
      rw [getParentsFuel_none hcm] at ha
      simp at ha
    | some obj =>
      have hobj : obj ∈ children := (childrenMap_some hcm).1
      cases hp : obj.parent with
      | none =>
        rw [getParentsFuel_root hcm hp] at ha
        rw [List.mem_singleton] at ha
        exact ha ▸ hobj
      | some q =>
        rw [getParentsFuel_step hcm hp] at ha
        rcases List.mem_append.mp ha with h1 | h2
        · exact ih q a h1
        · rw [List.mem_singleton] at h2
          exact h2 ▸ hobj

theorem getAllChildrenFuel_subset {children : List NavNode} :
    ∀ fuel us a, a ∈ getAllChildrenFuel (childrenMap children) fuel us →
      a ∈ children := by
  intro fuel
  induction fuel with
  | zero =>
    intro us a ha
    cases us with
    | nil => simp [getAllChildrenFuel] at ha
    | cons u rest => simp [getAllChildrenFuel] at ha
  | succ f ih =>
    intro us a ha
    cases us with
    | nil => simp [getAllChildrenFuel] at ha
    | cons u rest =>
      cases hcm : childrenMap children u with
      | none => simp [getAllChildrenFuel, hcm] at ha
      | some obj =>
        rw [getAllChildrenFuel_cons hcm] at ha
        rcases List.mem_cons.mp ha with h1 | h2
        · exact h1 ▸ (childrenMap_some hcm).1
        · exact ih _ a h2

theorem block_facts {children : List NavNode} (HU : (uidsOf children).Nodup)
    {n : NavNode} {pre sub post : List NavNode}
    (heq : children = pre ++ n :: sub ++ post) :
    n.uid ∉ uidsOf sub ∧
    (∀ c, c ∈ pre ∨ c ∈ post → c ≠ n ∧ c ∉ sub ∧ c.uid ≠ n.uid) ∧
    n ∉ sub ∧ (∀ c ∈ sub, c ∈ children) := by
  subst heq
  have hU2 : (uidsOf pre ++ (n.uid :: (uidsOf sub ++ uidsOf post))).Nodup := by
    simpa [uidsOf, List.map_append] using HU
  rw [List.nodup_append] at hU2
  obtain ⟨hpreN, hmidN, hdisj⟩ := hU2
  rw [List.nodup_cons, List.mem_append, List.nodup_append] at hmidN
  obtain ⟨hnin, hsubN, hpostN, hdisj2⟩ := hmidN
  have hnsub : n.uid ∉ uidsOf sub := fun h => hnin (Or.inl h)
  refine ⟨hnsub, ?_, ?_, ?_⟩
  · rintro c (hc | hc)
    · have huc : c.uid ∈ uidsOf pre := List.mem_map_of_mem _ hc
      have hne : ∀ x ∈ n.uid :: (uidsOf sub ++ uidsOf post), c.uid ≠ x := by
        intro x hx hcon
        exact hdisj huc (hcon ▸ hx)
      refine ⟨?_, ?_, ?_⟩
      · intro hcon
        exact hne n.uid (by simp) (by rw [hcon])
      · intro hcon
        exact hne c.uid (by simp [List.mem_map_of_mem _ hcon, uidsOf]) rfl
      · exact hne n.uid (by simp)
    · have huc : c.uid ∈ uidsOf post := List.mem_map_of_mem _ hc
      refine ⟨?_, ?_, ?_⟩
      · intro hcon
        exact hnin (Or.inr (hcon ▸ huc))
      · intro hcon
        exact hdisj2 (List.mem_map_of_mem _ hcon) huc
      · intro hcon
        exact hnin (Or.inr (hcon ▸ huc))
  · intro hcon
    exact hnsub (List.mem_map_of_mem _ hcon)
  · intro c hc
    simp [hc]

theorem augment_exclude (l : List NavNode) (u : Nat) (excl : List NavNode) :
    augmentRenderNodes l u [] excl = l.filter (fun c => !decide (c ∈ excl)) := by
  rw [augmentRenderNodes]
  cases excl with
  | nil =>
    have h : List.filter (fun c => !decide (c ∈ ([] : List NavNode))) l = l := by
      rw [List.filter_eq_self]
      intro a _
      simp
    rw [h]
    simp
  | cons x rest => simp

theorem visU_close {children : List NavNode} {opens : Finset Nat}
    (HU : (uidsOf children).Nodup)
    {n : NavNode} {pre sub post : List NavNode}
    (heq : children = pre ++ n :: sub ++ post)
    (hder : FlatForest (some n.uid) n.childUIDs sub)
    (hclos : ∀ c, c ∈ pre ∨ c ∈ post → ∀ q, c.parent = some q → q ∉ uidsOf (n :: sub))
    (hself : ∀ q, n.parent = some q → q ∉ uidsOf (n :: sub)) :
    visU children (opens \ (uidsOf (n :: sub)).toFinset) =
      (visU children opens).filter (fun c => !decide (c ∈ sub)) := by
  obtain ⟨hnsub, houtside, hnmem, hsubc⟩ := block_facts HU heq
  rw [visU, visU, List.filter_filter]
  refine List.filter_congr ?_
  intro c hc
  have hc2 := heq ▸ hc
  simp only [List.mem_append, List.mem_cons] at hc2
  have houtcase : (∀ q, c.parent = some q → q ∉ uidsOf (n :: sub)) → c ∉ sub →
      visPred (opens \ (uidsOf (n :: sub)).toFinset) c =
        (!decide (c ∈ sub) && visPred opens c) := by
    intro hout hns
    cases hcp : c.parent with
    | none => simp [visPred, hcp, hns]
    | some q =>
      have hq := hout q hcp
      simp [visPred, hcp, hns, decide_eq_decide, Finset.mem_sdiff,
        List.mem_toFinset, hq]
  rcases hc2 with (h1 | h2 | h3) | h4
  · exact houtcase (hclos c (Or.inl h1)) (houtside c (Or.inl h1)).2.1
  · subst h2
    exact houtcase hself hnmem
  · rcases hder.parent_shape c h3 with hp1 | ⟨q, hq, hql⟩
    · have hcp : c.parent = some n.uid := hp1
      simp [visPred, hcp, h3, Finset.mem_sdiff, List.mem_toFinset, uidsOf_cons]
    · have hqblock : q ∈ uidsOf (n :: sub) := by
        rw [uidsOf_cons]
        simp [hql]
      simp [visPred, hq, h3, Finset.mem_sdiff, List.mem_toFinset, hqblock]
  · exact houtcase (hclos c (Or.inr h4)) (houtside c (Or.inr h4)).2.1

theorem parent_in_block_mem_sub {children : List NavNode}
    {n : NavNode} {pre sub post : List NavNode}
    (heq : children = pre ++ n :: sub ++ post)
    (hclos : ∀ c, c ∈ pre ∨ c ∈ post → ∀ q, c.parent = some q → q ∉ uidsOf (n :: sub))
    (hself : ∀ q, n.parent = some q → q ∉ uidsOf (n :: sub)) :
    ∀ c ∈ children, ∀ q, c.parent = some q → q ∈ uidsOf (n :: sub) → c ∈ sub := by
  intro c hc q hq hblock
  have hc2 := heq ▸ hc
  simp only [List.mem_append, List.mem_cons] at hc2
  rcases hc2 with (h1 | h2 | h3) | h4
  · exact absurd hblock (hclos c (Or.inl h1) q hq)
  · exact absurd hblock (hself q (h2 ▸ hq))
  · exact h3
  · exact absurd hblock (hclos c (Or.inr h4) q hq)

theorem WFopen_sdiff {children : List NavNode} {opens : Finset Nat}
    {n : NavNode} {pre sub post : List NavNode}
    (heq : children = pre ++ n :: sub ++ post)
    (hclos : ∀ c, c ∈ pre ∨ c ∈ post → ∀ q, c.parent = some q → q ∉ uidsOf (n :: sub))
    (hself : ∀ q, n.parent = some q → q ∉ uidsOf (n :: sub))
    (hWF : WFopen children opens) :
    WFopen children (opens \ (uidsOf (n :: sub)).toFinset) := by
  intro u hu
  rw [Finset.mem_sdiff] at hu
  obtain ⟨m, hm, hmu, hok⟩ := hWF u hu.1
  refine ⟨m, hm, hmu, ?_⟩
  rcases hok with h1 | ⟨q, hq, hqo⟩
  · exact Or.inl h1
  · refine Or.inr ⟨q, hq, ?_⟩
    rw [Finset.mem_sdiff]
    refine ⟨hqo, ?_⟩
    rw [List.mem_toFinset]
    intro hqblock
    have hmsub : m ∈ sub := parent_in_block_mem_sub heq hclos hself m hm q hq hqblock
    refine hu.2 ?_
    rw [List.mem_toFinset, uidsOf_cons, List.mem_cons]
    right
    rw [← hmu]
    exact List.mem_map_of_mem _ hmsub

theorem visU_block_closed {children : List NavNode} {opens : Finset Nat}
    (HU : (uidsOf children).Nodup) (hWF : WFopen children opens)
    {n : NavNode} {pre sub post : List NavNode}
    (heq : children = pre ++ n :: sub ++ post)
    (hder : FlatForest (some n.uid) n.childUIDs sub)
    (hnopen : n.uid ∉ opens) (hvisn : visPred opens n = true) :
    visU children opens =
      pre.filter (visPred opens) ++ n :: post.filter (visPred opens) := by
  obtain ⟨hnsub, houtside, hnmem, hsubc⟩ := block_facts HU heq
  have hdead : ∀ c ∈ sub, c.uid ∉ opens :=
    FlatForest.dead hWF HU hder hsubc ⟨n.uid, rfl, hnopen⟩
  have hsubfalse : ∀ c ∈ sub, visPred opens c = false := by
    intro c hcs
    rcases hder.parent_shape c hcs with hp1 | ⟨q, hq, hql⟩
    · have hcp : c.parent = some n.uid := hp1
      simp [visPred, hcp, hnopen]
    · obtain ⟨d, hd, hdu⟩ := mem_uidsOf.mp hql
      have hdop := hdead d hd
      rw [hdu] at hdop
      simp [visPred, hq, hdop]
  have hnil : List.filter (visPred opens) sub = [] := by
    rw [List.filter_eq_nil_iff]
    intro a ha
    simp [hsubfalse a ha]
  rw [visU, heq, List.filter_append, List.filter_append, List.filter_cons,
    hnil, hvisn]
  simp

theorem take_drop_splice {α : Type} (l1 l2 : List α) (y : α) (incl : List α) :
    (l1 ++ y :: l2).take (l1.length + 1) ++ incl ++
      (l1 ++ y :: l2).drop (l1.length + 1) = l1 ++ y :: (incl ++ l2) := by
  have h : l1 ++ y :: l2 = (l1 ++ [y]) ++ l2 := by simp
  have hlen : l1.length + 1 = (l1 ++ [y]).length := by simp
  rw [h, hlen, List.take_left, List.drop_left]
  simp

theorem findIdx?_visU_block {n : NavNode} {preF postF : List NavNode}
    (hpre : ∀ c ∈ preF, c.uid ≠ n.uid) :
    List.findIdx? (fun c => c.uid = n.uid) (preF ++ n :: postF) =
      some preF.length := by
  refine findIdx?_append_cons _ _ _ _ ?_ (by simp)
  intro x hx
  simp [hpre x hx]

theorem visU_insert_eq {children : List NavNode} {opens : Finset Nat}
    (HU : (uidsOf children).Nodup) (hWF : WFopen children opens)
    {n : NavNode} {pre sub post : List NavNode}
    (heq : children = pre ++ n :: sub ++ post)
    (hder : FlatForest (some n.uid) n.childUIDs sub)
    (hclos : ∀ c, c ∈ pre ∨ c ∈ post → ∀ q, c.parent = some q → q ∉ uidsOf (n :: sub))
    (hnopen : n.uid ∉ opens) (hvisn : visPred opens n = true) :
    visU children (insert n.uid opens) =
      pre.filter (visPred opens) ++
        n :: (n.childUIDs.filterMap (childrenMap children) ++
          post.filter (visPred opens)) := by
  obtain ⟨hnsub, houtside, hnmem, hsubc⟩ := block_facts HU heq
  have hdead : ∀ c ∈ sub, c.uid ∉ opens :=
    FlatForest.dead hWF HU hder hsubc ⟨n.uid, rfl, hnopen⟩
  have hroots : sub.filter (fun c => c.parent = some n.uid) =
      n.childUIDs.filterMap (childrenMap children) :=
    hder.roots_eq HU n.uid rfl hsubc hnsub
  have houter : ∀ c, (c ∈ pre ∨ c ∈ post) →
      visPred (insert n.uid opens) c = visPred opens c := by
    intro c hcmem
    cases hcp : c.parent with
    | none => simp [visPred, hcp]
    | some q =>
      have hq := hclos c hcmem q hcp
      have hqn : q ≠ n.uid := by
        intro hcon
        exact hq (by simp [hcon, uidsOf_cons])
      simp [visPred, hcp, Finset.mem_insert, hqn]
  have hsubeq : sub.filter (visPred (insert n.uid opens)) =
      sub.filter (fun c => c.parent = some n.uid) := by
    refine List.filter_congr ?_
    intro c hcs
    rcases hder.parent_shape c hcs with hp1 | ⟨q, hq, hql⟩
    · have hcp : c.parent = some n.uid := hp1
      simp [visPred, hcp, Finset.mem_insert]
    · have hqn : q ≠ n.uid := by
        intro hcon
        exact hnsub (hcon ▸ hql)
      obtain ⟨d, hd, hdu⟩ := mem_uidsOf.mp hql
      have hdop := hdead d hd
      rw [hdu] at hdop
      simp [visPred, hq, Finset.mem_insert, hqn, hdop]
  have hvisn2 : visPred (insert n.uid opens) n = true := by
    cases hcp : n.parent with
    | none => simp [visPred, hcp]
    | some q =>
      have : q ∈ opens := by simpa [visPred, hcp] using hvisn
      simp [visPred, hcp, Finset.mem_insert, this]
  rw [visU, heq, List.filter_append, List.filter_append, List.filter_cons,
    hvisn2, hsubeq, hroots]
  rw [List.filter_congr (fun c hc => houter c (Or.inl hc)),
    List.filter_congr (fun c hc => houter c (Or.inr hc))]
  simp
  have hre : pre ++ n :: (sub ++ post) = children := by rw [heq]; simp
  rw [hre]

theorem visU_union_eq {children : List NavNode} {opens : Finset Nat}
    (HU : (uidsOf children).Nodup)
    {n : NavNode} {pre sub post : List NavNode}
    (heq : children = pre ++ n :: sub ++ post)
    (hder : FlatForest (some n.uid) n.childUIDs sub)
    (hclos : ∀ c, c ∈ pre ∨ c ∈ post → ∀ q, c.parent = some q → q ∉ uidsOf (n :: sub))
    (hvisn : visPred opens n = true) :
    visU children (opens ∪ (uidsOf (n :: sub)).toFinset) =
      pre.filter (visPred opens) ++
        n :: (sub ++ post.filter (visPred opens)) := by
  obtain ⟨hnsub, houtside, hnmem, hsubc⟩ := block_facts HU heq
  have houter : ∀ c, (c ∈ pre ∨ c ∈ post) →
      visPred (opens ∪ (uidsOf (n :: sub)).toFinset) c = visPred opens c := by
    intro c hcmem
    cases hcp : c.parent with
    | none => simp [visPred, hcp]
    | some q =>
      have hq := hclos c hcmem q hcp
      simp [visPred, hcp, Finset.mem_union, List.mem_toFinset, hq]
  have hsubeq : sub.filter (visPred (opens ∪ (uidsOf (n :: sub)).toFinset)) =
      sub := by
    rw [List.filter_eq_self]
    intro c hcs
    rcases hder.parent_shape c hcs with hp1 | ⟨q, hq, hql⟩
    · have hcp : c.parent = some n.uid := hp1
      simp [visPred, hcp, Finset.mem_union, List.mem_toFinset, uidsOf_cons]
    · have hqb : q ∈ uidsOf (n :: sub) := by simp [uidsOf_cons, hql]
      simp [visPred, hq, Finset.mem_union, List.mem_toFinset, hqb]
  have hvisn2 : visPred (opens ∪ (uidsOf (n :: sub)).toFinset) n = true := by
    cases hcp : n.parent with
    | none => simp [visPred, hcp]
    | some q =>
      have : q ∈ opens := by simpa [visPred, hcp] using hvisn
      simp [visPred, hcp, Finset.mem_union, this]
  rw [visU, heq, List.filter_append, List.filter_append, List.filter_cons,
    hvisn2, hsubeq]
  rw [List.filter_congr (fun c hc => houter c (Or.inl hc)),
    List.filter_congr (fun c hc => houter c (Or.inr hc))]
  simp

theorem augment_include_eq {preF postF : List NavNode} {n : NavNode}
    (incl : List NavNode) (hpre : ∀ c ∈ preF, c.uid ≠ n.uid) :
    augmentRenderNodes (preF ++ n :: postF) n.uid incl [] =
      preF ++ n :: (incl ++ postF) := by
  rw [augmentRenderNodes]
  cases incl with
  | nil => simp
  | cons x rest =>
    have hbr : (!(x :: rest).isEmpty) = true := by simp
    rw [if_pos hbr, findIdx?_visU_block hpre]
    exact take_drop_splice preF postF n (x :: rest)

theorem WFopen_insert {children : List NavNode} {opens : Finset Nat}
    (hWF : WFopen children opens) {n : NavNode} (hnchild : n ∈ children)
    (hvisn : visPred opens n = true) :
    WFopen children (insert n.uid opens) := by
  intro u hu
  rcases Finset.mem_insert.mp hu with h1 | h2
  · refine ⟨n, hnchild, h1.symm, ?_⟩
    cases hcp : n.parent with
    | none => exact Or.inl rfl
    | some q =>
      have hq : q ∈ opens := by simpa [visPred, hcp] using hvisn
      exact Or.inr ⟨q, rfl, Finset.mem_insert_of_mem hq⟩
  · obtain ⟨m, hm, hmu, hok⟩ := hWF u h2
    refine ⟨m, hm, hmu, ?_⟩
    rcases hok with h1 | ⟨q, hq, hqo⟩
    · exact Or.inl h1
    · exact Or.inr ⟨q, hq, Finset.mem_insert_of_mem hqo⟩

theorem WFopen_union_block {children : List NavNode} {opens : Finset Nat}
    (hWF : WFopen children opens)
    {n : NavNode} {pre sub post : List NavNode}
    (heq : children = pre ++ n :: sub ++ post)
    (hder : FlatForest (some n.uid) n.childUIDs sub)
    (hvisn : visPred opens n = true) :
    WFopen children (opens ∪ (uidsOf (n :: sub)).toFinset) := by
  have hnchild : n ∈ children := by rw [heq]; simp
  have hsubc : ∀ c ∈ sub, c ∈ children := by
    intro c hc
    rw [heq]
    simp [hc]
  intro u hu
  rcases Finset.mem_union.mp hu with h1 | h2
  · obtain ⟨m, hm, hmu, hok⟩ := hWF u h1
    refine ⟨m, hm, hmu, ?_⟩
    rcases hok with hk | ⟨q, hq, hqo⟩
    · exact Or.inl hk
    · exact Or.inr ⟨q, hq, Finset.mem_union_left _ hqo⟩
  · rw [List.mem_toFinset, uidsOf_cons, List.mem_cons] at h2
    rcases h2 with h2 | h2
    · refine ⟨n, hnchild, h2.symm, ?_⟩
      cases hcp : n.parent with
      | none => exact Or.inl rfl
      | some q =>
        have hq : q ∈ opens := by simpa [visPred, hcp] using hvisn
        exact Or.inr ⟨q, rfl, Finset.mem_union_left _ hq⟩
    · obtain ⟨d, hd, hdu⟩ := mem_uidsOf.mp h2
      refine ⟨d, hsubc d hd, hdu, ?_⟩
      rcases hder.parent_shape d hd with hp1 | ⟨q, hq, hql⟩
      · refine Or.inr ⟨n.uid, hp1, Finset.mem_union_right _ ?_⟩
        simp [uidsOf_cons]
      · refine Or.inr ⟨q, hq, Finset.mem_union_right _ ?_⟩
        simp [uidsOf_cons, hql]

theorem toggle_preserves {children : List NavNode} {rus : List Nat}
    (HF : FlatForest none rus children) (HU : (uidsOf children).Nodup)
    {s : CardState} {n : NavNode} (hInv : TrackerInv children s)
    (hvis : n ∈ s.nodesToRender) :
    TrackerInv children (toggle children s n) := by
  obtain ⟨hWF, hlist⟩ := hInv
  rw [hlist] at hvis
  have hnchild : n ∈ children := (List.mem_filter.mp hvis).1
  have hvisn : visPred s.openNodes n = true := (List.mem_filter.mp hvis).2
  obtain ⟨pre, sub, post, heq, hder, hclos, hself⟩ :=
    HF.decomp HU (by simp) n hnchild
  have hgac : getAllChildren children n.uid = n :: sub :=
    getAllChildren_eq HU heq hder
  obtain ⟨hnsub, houtside, hnmem, hsubc⟩ := block_facts HU heq
  rw [toggle]
  by_cases hop : n.uid ∈ s.openNodes
  · rw [if_pos hop]
    refine ⟨?_, ?_⟩
    · show WFopen children (s.openNodes \ (uidsOf (getAllChildren children n.uid)).toFinset)
      rw [hgac]
      exact WFopen_sdiff heq hclos hself hWF
    · show augmentRenderNodes s.nodesToRender n.uid []
          ((getAllChildren children n.uid).drop 1) =
        visU children (s.openNodes \ (uidsOf (getAllChildren children n.uid)).toFinset)
      rw [hgac]
      have hdrop : (n :: sub).drop 1 = sub := by simp
      rw [hdrop, hlist, augment_exclude,
        visU_close HU heq hder hclos hself]
  · rw [if_neg hop]
    refine ⟨?_, ?_⟩
    · show WFopen children (insert n.uid s.openNodes)
      exact WFopen_insert hWF hnchild hvisn
    · show augmentRenderNodes s.nodesToRender n.uid
          (n.childUIDs.filterMap (childrenMap children)) [] =
        visU children (insert n.uid s.openNodes)
      have hpreuid : ∀ c ∈ pre.filter (visPred s.openNodes), c.uid ≠ n.uid :=
        fun c hc => (houtside c (Or.inl (List.mem_filter.mp hc).1)).2.2
      rw [hlist, visU_block_closed HU hWF heq hder hop hvisn,
        augment_include_eq _ hpreuid,
        visU_insert_eq HU hWF heq hder hclos hop hvisn]

theorem toggleFullTree_preserves {children : List NavNode} {rus : List Nat}
    (HF : FlatForest none rus children) (HU : (uidsOf children).Nodup)
    {s : CardState} {n : NavNode} (hInv : TrackerInv children s)
    (hvis : n ∈ s.nodesToRender) :
    TrackerInv children (toggleFullTree children s n) := by
  obtain ⟨hWF, hlist⟩ := hInv
  rw [hlist] at hvis
  have hnchild : n ∈ children := (List.mem_filter.mp hvis).1
  have hvisn : visPred s.openNodes n = true := (List.mem_filter.mp hvis).2
  obtain ⟨pre, sub, post, heq, hder, hclos, hself⟩ :=
    HF.decomp HU (by simp) n hnchild
  have hgac : getAllChildren children n.uid = n :: sub :=
    getAllChildren_eq HU heq hder
  obtain ⟨hnsub, houtside, hnmem, hsubc⟩ := block_facts HU heq
  rw [toggleFullTree]
  by_cases hop : n.uid ∈ s.openNodes
  · rw [if_pos hop, if_pos hop]
    refine ⟨?_, ?_⟩
    · show WFopen children (s.openNodes \ (uidsOf (getAllChildren children n.uid)).toFinset)
      rw [hgac]
      exact WFopen_sdiff heq hclos hself hWF
    · show augmentRenderNodes s.nodesToRender n.uid []
          ((getAllChildren children n.uid).drop 1) =
        visU children (s.openNodes \ (uidsOf (getAllChildren children n.uid)).toFinset)
      rw [hgac]
      have hdrop : (n :: sub).drop 1 = sub := by simp
      rw [hdrop, hlist, augment_exclude,
        visU_close HU heq hder hclos hself]
  · rw [if_neg hop, if_neg hop]
    refine ⟨?_, ?_⟩
    · show WFopen children (s.openNodes ∪ (uidsOf (getAllChildren children n.uid)).toFinset)
      rw [hgac]
      exact WFopen_union_block hWF heq hder hvisn
    · show augmentRenderNodes s.nodesToRender n.uid
          ((getAllChildren children n.uid).drop 1) [] =
        visU children (s.openNodes ∪ (uidsOf (getAllChildren children n.uid)).toFinset)
      rw [hgac]
      have hdrop : (n :: sub).drop 1 = sub := by simp
      have hpreuid : ∀ c ∈ pre.filter (visPred s.openNodes), c.uid ≠ n.uid :=
        fun c hc => (houtside c (Or.inl (List.mem_filter.mp hc).1)).2.2
      rw [hdrop, hlist, visU_block_closed HU hWF heq hder hop hvisn,
        augment_include_eq _ hpreuid,
        visU_union_eq HU heq hder hclos hvisn]

theorem genNodes_unfiltered (children fc : List NavNode) (opens : Finset Nat) :
    generateNodesToRender children fc false opens = visU children opens := by
  rw [generateNodesToRender, visU]
  refine List.filter_congr ?_
  intro c _
  cases hcp : c.parent with
  | none => simp [visPred, hcp]
  | some q => simp [visPred, hcp]

theorem mem_visU {children : List NavNode} {opens : Finset Nat} {c : NavNode} :
    c ∈ visU children opens ↔
      c ∈ children ∧ (c.parent = none ∨ ∃ q, c.parent = some q ∧ q ∈ opens) := by
  rw [visU, List.mem_filter]
  refine and_congr_right fun _ => ?_
  cases hcp : c.parent with
  | none => simp [visPred, hcp]
  | some q => simp [visPred, hcp]

theorem applyOps_preserves {children : List NavNode} {rus : List Nat}
    (HF : FlatForest none rus children) (HU : (uidsOf children).Nodup) :
    ∀ (ops : List NavOp) (s : CardState), TrackerInv children s →
      validOps children s ops = true →
      TrackerInv children (applyOps children s ops) := by
  intro ops
  induction ops with
  | nil => intro s h _; exact h
  | cons op rest ih =>
    intro s hInv hval
    rw [validOps, Bool.and_eq_true, decide_eq_true_eq] at hval
    obtain ⟨h1, h2⟩ := hval
    show TrackerInv children (applyOps children (applyOp children s op) rest)
    refine ih _ ?_ h2
    cases op with
    | tog m => exact toggle_preserves HF HU hInv h1
    | togFull m => exact toggleFullTree_preserves HF HU hInv h1

theorem CardState.eq_of {a b : CardState} (h1 : a.openNodes = b.openNodes)
    (h2 : a.nodesToRender = b.nodesToRender) : a = b := by
  cases a
  cases b
  simp only at h1 h2
  rw [h1, h2]

theorem toggle_openNodes_open {children : List NavNode} {s : CardState}
    {n : NavNode} (hop : n.uid ∉ s.openNodes) :
    (toggle children s n).openNodes = insert n.uid s.openNodes := by
  rw [toggle, if_neg hop]

theorem toggle_openNodes_close {children : List NavNode} {s : CardState}
    {n : NavNode} (hop : n.uid ∈ s.openNodes) :
    (toggle children s n).openNodes =
      s.openNodes \ (uidsOf (getAllChildren children n.uid)).toFinset := by
  rw [toggle, if_pos hop]

theorem toggle_toggle_restore {children : List NavNode} {rus : List Nat}
    (HF : FlatForest none rus children) (HU : (uidsOf children).Nodup)
    {s : CardState} (hInv : TrackerInv children s) {n : NavNode}
    (hvis : n ∈ s.nodesToRender)
    (hnd : ∀ c ∈ (getAllChildren children n.uid).drop 1, c.uid ∉ s.openNodes) :
    toggle children (toggle children s n) n = s := by
  obtain ⟨hWF, hlist⟩ := hInv
  have hvis2 := hvis
  rw [hlist] at hvis2
  have hnchild : n ∈ children := (List.mem_filter.mp hvis2).1
  have hvisn : visPred s.openNodes n = true := (List.mem_filter.mp hvis2).2
  obtain ⟨pre, sub, post, heq, hder, hclos, hself⟩ :=
    HF.decomp HU (by simp) n hnchild
  have hgac : getAllChildren children n.uid = n :: sub :=
    getAllChildren_eq HU heq hder
  have hnd2 : ∀ c ∈ sub, c.uid ∉ s.openNodes := by
    intro c hc
    refine hnd c ?_
    rw [hgac]
    simpa using hc
  have hInv1 : TrackerInv children (toggle children s n) :=
    toggle_preserves HF HU ⟨hWF, hlist⟩ hvis
  by_cases hop : n.uid ∈ s.openNodes
  · -- open, so close then re-open
    have hopen1 : (toggle children s n).openNodes =
        s.openNodes \ (uidsOf (n :: sub)).toFinset := by
      rw [toggle_openNodes_close hop, hgac]
    have hop1 : n.uid ∉ (toggle children s n).openNodes := by
      rw [hopen1]
      simp [Finset.mem_sdiff, List.mem_toFinset, uidsOf_cons]
    have hopen2 : (toggle children (toggle children s n) n).openNodes =
        s.openNodes := by
      rw [toggle_openNodes_open hop1, hopen1]
      ext u
      simp only [Finset.mem_insert, Finset.mem_sdiff, List.mem_toFinset,
        uidsOf_cons, List.mem_cons]
      constructor
      · rintro (rfl | ⟨hu, _⟩)
        · exact hop
        · exact hu
      · intro hu
        by_cases hun : u = n.uid
        · exact Or.inl hun
        · refine Or.inr ⟨hu, ?_⟩
          rintro (h1 | h1)
          · exact hun h1
          · obtain ⟨d, hd, hdu⟩ := mem_uidsOf.mp h1
            exact hnd2 d hd (hdu ▸ hu)
    have hvis1 : n ∈ (toggle children s n).nodesToRender := by
      rw [hInv1.2]
      refine mem_visU.mpr ⟨hnchild, ?_⟩
      cases hcp : n.parent with
      | none => exact Or.inl rfl
      | some q =>
        have hq : q ∈ s.openNodes := by simpa [visPred, hcp] using hvisn
        refine Or.inr ⟨q, rfl, ?_⟩
        rw [hopen1, Finset.mem_sdiff, List.mem_toFinset]
        exact ⟨hq, hself q hcp⟩
    have hInv2 := toggle_preserves HF HU hInv1 hvis1
    refine CardState.eq_of hopen2 ?_
    rw [hInv2.2, hopen2, hlist]
  · -- closed, so open then close
    have hopen1 : (toggle children s n).openNodes =
        insert n.uid s.openNodes := toggle_openNodes_open hop
    have hop1 : n.uid ∈ (toggle children s n).openNodes := by
      rw [hopen1]
      exact Finset.mem_insert_self _ _
    have hopen2 : (toggle children (toggle children s n) n).openNodes =
        s.openNodes := by
      rw [toggle_openNodes_close hop1, hopen1, hgac]
      ext u
      simp only [Finset.mem_sdiff, Finset.mem_insert, List.mem_toFinset,
        uidsOf_cons, List.mem_cons]
      constructor
      · rintro ⟨rfl | hu, hnb⟩
        · exact absurd (Or.inl rfl) hnb
        · exact hu
      · intro hu
        refine ⟨Or.inr hu, ?_⟩
        rintro (h1 | h1)
        · exact hop (h1 ▸ hu)
        · obtain ⟨d, hd, hdu⟩ := mem_uidsOf.mp h1
          exact hnd2 d hd (hdu ▸ hu)
    have hvis1 : n ∈ (toggle children s n).nodesToRender := by
      rw [hInv1.2]
      refine mem_visU.mpr ⟨hnchild, ?_⟩
      cases hcp : n.parent with
      | none => exact Or.inl rfl
      | some q =>
        have hq : q ∈ s.openNodes := by simpa [visPred, hcp] using hvisn
        refine Or.inr ⟨q, rfl, ?_⟩
        rw [hopen1]
        exact Finset.mem_insert_of_mem hq
    have hInv2 := toggle_preserves HF HU hInv1 hvis1
    refine CardState.eq_of hopen2 ?_
    rw [hInv2.2, hopen2, hlist]

theorem filteredChildren_subset {children : List NavNode} {df : String}
    {tags : List FilterTag} :
    ∀ c ∈ filteredChildren children df tags, c ∈ children := by
  intro c hc
  rw [filteredChildren] at hc
  by_cases h : hasFilter df tags
  · rw [if_neg (by simp [h])] at hc
    exact (List.mem_filter.mp hc).1
  · rw [if_pos (by simp [Bool.not_eq_true] at h; simp [h])] at hc
    simp at hc

theorem mem_genNodes_filtered {children : List NavNode} {rus : List Nat}
    (HF : FlatForest none rus children) (HU : (uidsOf children).Nodup)
    {fc : List NavNode} (hfc : ∀ m ∈ fc, m ∈ children)
    (opens : Finset Nat) (c : NavNode) :
    c ∈ generateNodesToRender children fc true opens ↔
      c ∈ children ∧
        ((∃ m ∈ fc, AncestorOf (childrenMap children) c m) ∨
         (∃ q m2, c.parent = some q ∧ q ∈ opens ∧
           childrenMap children q = some m2 ∧ m2 ∈ fc)) := by
  rw [generateNodesToRender, List.mem_filter]
  refine and_congr_right fun hc => ?_
  have hmatches : (c ∈ fc.flatMap fun m => getParents children m.uid) ↔
      ∃ m ∈ fc, AncestorOf (childrenMap children) c m := by
    rw [List.mem_flatMap]
    constructor
    · rintro ⟨m, hm, hcm⟩
      exact ⟨m, hm, (mem_getParents_iff HF HU (hfc m hm) c).mp hcm⟩
    · rintro ⟨m, hm, hcm⟩
      exact ⟨m, hm, (mem_getParents_iff HF HU (hfc m hm) c).mpr hcm⟩
  cases hcp : c.parent with
  | none =>
    simp only [hcp, Bool.not_true, if_false]
    simp [hmatches]
  | some q =>
    cases hcm : childrenMap children q with
    | none =>
      simp only [hcp, hcm]
      simp [hmatches, hcm]
    | some m2 =>
      simp only [hcp, hcm, Bool.not_true, Bool.false_eq_true, if_false,
        Bool.or_eq_true, Bool.and_eq_true, decide_eq_true_eq]
      constructor
      · rintro ((h0 | ⟨hq, hm2⟩) | hmem)
        · exact h0.elim
        · exact Or.inr ⟨q, m2, rfl, hq, hcm, hm2⟩
        · exact Or.inl (hmatches.mp hmem)
      · rintro (hM | ⟨q2, m3, hq2, ho, hcm2, hm3⟩)
        · exact Or.inr (hmatches.mpr hM)
        · injection hq2 with hq2
          subst hq2
          rw [hcm] at hcm2
          injection hcm2 with hcm2
          subst hcm2
          exact Or.inl (Or.inr ⟨ho, hm3⟩)

/-! ### Active-path resolution lemmas -/

theorem apcFrom_map_path (children : List NavNode) :
    ∀ (segs : List String) (pool : List NavNode),
      (activePathChildrenFrom children segs pool).map (·.path) =
        segs.take (activePathChildrenFrom children segs pool).length := by
  intro segs
  induction segs with
  | nil => intro pool; simp [activePathChildrenFrom]
  | cons seg rest ih =>
    intro pool
    rw [activePathChildrenFrom]
    cases hf : pool.find? (fun c => c.path = seg) with
    | none => simp
    | some node =>
      have hpath : node.path = seg := by
        have := List.find?_some hf
        simpa using this
      simp [hpath, ih]

theorem apcFrom_chain (children : List NavNode) :
    ∀ (segs : List String) (pool : List NavNode),
      List.Chain' (fun a b => b ∈ a.childUIDs.filterMap (childrenMap children))
        (activePathChildrenFrom children segs pool) ∧
      (∀ h, (activePathChildrenFrom children segs pool).head? = some h →
        h ∈ pool) := by
  intro segs
  induction segs with
  | nil => intro pool; simp [activePathChildrenFrom]
  | cons seg rest ih =>
    intro pool
    rw [activePathChildrenFrom]
    cases hf : pool.find? (fun c => c.path = seg) with
    | none => simp
    | some node =>
      obtain ⟨hchain, hhead⟩ := ih (node.childUIDs.filterMap (childrenMap children))
      refine ⟨?_, ?_⟩
      · rw [List.chain'_cons']
        exact ⟨fun b hb => hhead b (by simpa using hb), hchain⟩
      · intro h hh
        simp only [List.head?_cons, Option.some_inj] at hh
        subst hh
        exact List.mem_of_find?_eq_some hf

theorem apcFrom_stop (children : List NavNode) :
    ∀ (segs : List String) (pool : List NavNode),
      (activePathChildrenFrom children segs pool).length < segs.length →
      ∃ seg rest2,
        segs.drop (activePathChildrenFrom children segs pool).length =
          seg :: rest2 ∧
        (activePathChildrenFrom children segs pool = [] →
          ∀ c ∈ pool, c.path ≠ seg) ∧
        (∀ last, (activePathChildrenFrom children segs pool).getLast? = some last →
          ∀ c ∈ last.childUIDs.filterMap (childrenMap children), c.path ≠ seg) := by
  intro segs
  induction segs with
  | nil => intro pool h; simp [activePathChildrenFrom] at h
  | cons seg rest ih =>
    intro pool hlen
    cases hf : pool.find? (fun c => c.path = seg) with
    | none =>
      have hred : activePathChildrenFrom children (seg :: rest) pool = [] := by
        rw [activePathChildrenFrom, hf]
      rw [hred]
      refine ⟨seg, rest, by simp, ?_, ?_⟩
      · intro _ c hc hcon
        have := List.find?_eq_none.mp hf c hc
        simp [hcon] at this
      · intro last hl
        simp at hl
    | some node =>
      have hred : activePathChildrenFrom children (seg :: rest) pool =
          node :: activePathChildrenFrom children rest
            (node.childUIDs.filterMap (childrenMap children)) := by
        rw [activePathChildrenFrom, hf]
      rw [hred] at hlen ⊢
      simp only [List.length_cons] at hlen
      have hlen2 : (activePathChildrenFrom children rest
          (node.childUIDs.filterMap (childrenMap children))).length <
          rest.length := by omega
      obtain ⟨seg2, rest2, hdrop, hstop1, hstop2⟩ := ih _ hlen2
      refine ⟨seg2, rest2, by simpa using hdrop, ?_, ?_⟩
      · intro hcon
        cases hcon
      · intro last hl
        cases htail : activePathChildrenFrom children rest
            (node.childUIDs.filterMap (childrenMap children)) with
        | nil =>
          rw [htail] at hl
          simp only [List.getLast?_singleton, Option.some_inj] at hl
          subst hl
          exact hstop1 htail
        | cons t ts =>
          rw [htail] at hl
          rw [List.getLast?_cons_cons] at hl
          refine hstop2 last ?_
          rw [htail, hl]

/-! ### Concrete forest derivations for the example collections -/

theorem flatforest_scenario : FlatForest none [1, 2] scenarioChildren := by
  refine FlatForest.cons none scA [2] [] [scB, scC] rfl (FlatForest.nil _) ?_
  refine FlatForest.cons none scB [] [scC] [] rfl ?_ (FlatForest.nil _)
  exact FlatForest.cons (some 2) scC [] [] [] rfl (FlatForest.nil _) (FlatForest.nil _)

theorem flatforest_f : FlatForest none [1] fChildren := by
  refine FlatForest.cons none fA [] [fB] [] rfl ?_ (FlatForest.nil _)
  exact FlatForest.cons (some 1) fB [] [] [] rfl (FlatForest.nil _) (FlatForest.nil _)

theorem flatforest_g : FlatForest none [1] gChildren := by
  refine FlatForest.cons none gA [] [gB, gC] [] rfl ?_ (FlatForest.nil _)
  refine FlatForest.cons (some 1) gB [3] [] [gC] rfl (FlatForest.nil _) ?_
  exact FlatForest.cons (some 1) gC [] [] [] rfl (FlatForest.nil _) (FlatForest.nil _)

theorem flatforest_h : FlatForest none [1] hChildren := by
  refine FlatForest.cons none hN [] [hC, hG] [] rfl ?_ (FlatForest.nil _)
  refine FlatForest.cons (some 1) hC [] [hG] [] rfl ?_ (FlatForest.nil _)
  exact FlatForest.cons (some 2) hG [] [] [] rfl (FlatForest.nil _) (FlatForest.nil _)

theorem flatforest_o : FlatForest none [1] oChildren := by
  refine FlatForest.cons none oP [] [oQ, oR, oS] [] rfl ?_ (FlatForest.nil _)
  refine FlatForest.cons (some 1) oQ [4] [oR] [oS] rfl ?_ ?_
  · exact FlatForest.cons (some 2) oR [] [] [] rfl (FlatForest.nil _) (FlatForest.nil _)
  · exact FlatForest.cons (some 1) oS [] [] [] rfl (FlatForest.nil _) (FlatForest.nil _)

theorem flatforest_t : FlatForest none [1, 2] tChildren := by
  refine FlatForest.cons none tA [2] [] [tB, tC, tD] rfl (FlatForest.nil _) ?_
  refine FlatForest.cons none tB [] [tC, tD] [] rfl ?_ (FlatForest.nil _)
  refine FlatForest.cons (some 2) tC [] [tD] [] rfl ?_ (FlatForest.nil _)
  exact FlatForest.cons (some 3) tD [] [] [] rfl (FlatForest.nil _) (FlatForest.nil _)

/-! ### The claims -/

/-- **C10**: whenever at least one filter tag is selected, the list of
available tag suggestions is empty; with no tag selected it is exactly
the three labels Sample Code, Tutorials, Articles — so tags from
distinct categories can never be combined in a single filter. -/
theorem c10_availableTags (selectedTags : List FilterTag) :
    (selectedTags ≠ [] → availableTags selectedTags = []) ∧
    availableTags [] = ["Sample Code", "Tutorials", "Articles"] := by
  constructor
  · intro h
    rw [availableTags, if_pos]
    simpa using h
  · rfl

/-- Witness for `c10_availableTags` at the concrete tag list
`[articles]`. -/
theorem c10_availableTags_witness :
    availableTags [FilterTag.articles] = [] ∧
    availableTags [] = ["Sample Code", "Tutorials", "Articles"] :=
  ⟨(c10_availableTags [FilterTag.articles]).1 (by simp),
   (c10_availableTags []).2⟩

/-- **C9**: in filtered mode a node passes the filter iff (the pattern
is absent — empty debounced text — or it tests true against the title)
and (no tag is selected or the node's type maps to a selected tag) and
the type is not the structural group marker; moreover the compiled
pattern is a pure function of the debounced text, so repeated tests of
the same pattern against the same title always agree. -/
theorem c9_filter_predicate (children : List NavNode) (df : String)
    (tags : List FilterTag) (hf : hasFilter df tags = true) (c : NavNode) :
    (c ∈ filteredChildren children df tags ↔
      c ∈ children ∧
        (df = "" ∨ titleMatches df c.title = true) ∧
        (tags = [] ∨ ∃ tg, TOPIC_TYPE_TO_TAG c.type = some tg ∧ tg ∈ tags) ∧
        c.type ≠ TopicType.groupMarker) ∧
    (∀ p, filterPattern df = some p → ∀ title, p title = titleMatches df title) := by
  constructor
  · rw [filteredChildren, if_neg (by simp [hf]), List.mem_filter]
    refine and_congr_right fun _ => ?_
    have htitle : (match filterPattern df with
        | some p => p c.title
        | none => true) = true ↔ (df = "" ∨ titleMatches df c.title = true) := by
      rw [filterPattern]
      by_cases hdf : df.isEmpty
      · rw [if_pos hdf]
        simp [(String.isEmpty_iff df).mp hdf]
      · rw [if_neg hdf]
        have hne : ¬df = "" := fun h => hdf (by rw [h]; rfl)
        simp [hne]
    have htag : (if !tags.isEmpty then
        (match TOPIC_TYPE_TO_TAG c.type with
         | some tg => decide (tg ∈ tags)
         | none => false)
        else true) = true ↔
        (tags = [] ∨ ∃ tg, TOPIC_TYPE_TO_TAG c.type = some tg ∧ tg ∈ tags) := by
      by_cases ht : tags.isEmpty
      · rw [if_neg (by simp [ht])]
        simp [List.isEmpty_iff.mp ht]
      · rw [if_pos (by simp [ht])]
        have hne : ¬tags = [] := fun h => ht (by simp [h])
        cases htt : TOPIC_TYPE_TO_TAG c.type with
        | none => simp [hne, htt]
        | some tg => simp [hne, htt]
    rw [Bool.and_eq_true, Bool.and_eq_true, htitle, htag]
    simp [and_assoc]
  · intro p hp title
    rw [filterPattern] at hp
    by_cases hdf : df.isEmpty
    · rw [if_pos hdf] at hp
      cases hp
    · rw [if_neg hdf] at hp
      injection hp with hp
      rw [← hp]

/-- Witness for `c9_filter_predicate`: the concrete filtered collection
`fChildren` with filter text `"match"`. -/
theorem c9_filter_predicate_witness :
    hasFilter "match" [] = true ∧
    (fB ∈ filteredChildren fChildren "match" [] ↔
      fB ∈ fChildren ∧
        ("match" = "" ∨ titleMatches "match" fB.title = true) ∧
        (([] : List FilterTag) = [] ∨
          ∃ tg, TOPIC_TYPE_TO_TAG fB.type = some tg ∧ tg ∈ ([] : List FilterTag)) ∧
        fB.type ≠ TopicType.groupMarker) ∧
    (∀ p, filterPattern "match" = some p →
      ∀ title, p title = titleMatches "match" title) := by
  refine ⟨by decide, ?_, ?_⟩
  · exact (c9_filter_predicate fChildren "match" [] (by decide) fB).1
  · exact (c9_filter_predicate fChildren "match" [] (by decide) fB).2

/-- **C8** (amended): ancestry resolution walks the path segments from
outermost inward, searching the current candidate set — initially the
ENTIRE flat node list (not only the top-level children), then the
previously resolved node's children — for a node whose `path` equals the
segment; on the first unmatched segment it stops and returns exactly the
prefix resolved so far without error, and `activeUID` is the uid of the
last resolved node, or `none` when no segment resolves. -/
theorem c8_ancestry_resolution (children : List NavNode) (segs : List String) :
    (activePathChildren children segs).map (·.path) =
      segs.take (activePathChildren children segs).length ∧
    (activePathChildren children segs).length ≤ segs.length ∧
    List.Chain' (fun a b => b ∈ a.childUIDs.filterMap (childrenMap children))
      (activePathChildren children segs) ∧
    (∀ h, (activePathChildren children segs).head? = some h → h ∈ children) ∧
    ((activePathChildren children segs).length < segs.length →
      ∃ seg rest2,
        segs.drop (activePathChildren children segs).length = seg :: rest2 ∧
        (activePathChildren children segs = [] → ∀ c ∈ children, c.path ≠ seg) ∧
        (∀ last, (activePathChildren children segs).getLast? = some last →
          ∀ c ∈ last.childUIDs.filterMap (childrenMap children),
            c.path ≠ seg)) ∧
    activeUID (activePathChildren children segs) =
      (activePathChildren children segs).getLast?.map (·.uid) ∧
    (activeUID (activePathChildren children segs) = none ↔
      activePathChildren children segs = []) := by
  have hmap := apcFrom_map_path children segs children
  have hchain := apcFrom_chain children segs children
  refine ⟨hmap, ?_, hchain.1, hchain.2, apcFrom_stop children segs children,
    rfl, ?_⟩
  · have hlen := congrArg List.length hmap
    rw [List.length_map, List.length_take] at hlen
    exact hlen ▸ min_le_right _ _
  · cases h : activePathChildren children segs with
    | nil => simp [activeUID]
    | cons a l =>
      simp only [activeUID]
      constructor
      · intro hcon
        exfalso
        have hnone : (a :: l).getLast? = none := Option.map_eq_none'.mp hcon
        have hs : ((a :: l).getLast?).isSome = true := by
          rw [List.getLast?_isSome]
          simp
        rw [hnone] at hs
        cases hs
      · intro hcon
        cases hcon

/-- Counterexample to C8 as stated: the first path segment is searched
in the WHOLE flat list, not just the top-level children.  In `oChildren`
no top-level node has path `"q"`, yet the single segment `"q"` resolves
to the nested node `oQ` (uid 2, parent 1), so `activeUID` is `some 2`
where the claimed algorithm would resolve nothing. -/
theorem c8_counterexample :
    FlatForest none [1] oChildren ∧ (uidsOf oChildren).Nodup ∧
    (∀ c ∈ oChildren, c.parent = none → c.path ≠ "q") ∧
    activePathChildren oChildren ["q"] = [oQ] ∧
    oQ.parent = some 1 ∧
    activeUID (activePathChildren oChildren ["q"]) = some 2 :=
  ⟨flatforest_o, by decide, by decide, by decide, by decide, by decide⟩

/-- Witness for `c8_ancestry_resolution` at the scenario collection:
the full path `["b", "b/c"]` resolves, and the path `["b", "zzz"]`
stops after its matched prefix with the unmatched segment rejected by
the candidate pool. -/
theorem c8_ancestry_resolution_witness :
    ((activePathChildren scenarioChildren ["b", "b/c"]).map (·.path) =
      ["b", "b/c"].take (activePathChildren scenarioChildren ["b", "b/c"]).length) ∧
    (activeUID (activePathChildren scenarioChildren ["b", "b/c"]) =
      (activePathChildren scenarioChildren ["b", "b/c"]).getLast?.map (·.uid)) ∧
    ((activePathChildren scenarioChildren ["b", "zzz"]).length <
      (["b", "zzz"] : List String).length ∧
     ∃ seg rest2,
      (["b", "zzz"] : List String).drop
        (activePathChildren scenarioChildren ["b", "zzz"]).length = seg :: rest2 ∧
      (activePathChildren scenarioChildren ["b", "zzz"] = [] →
        ∀ c ∈ scenarioChildren, c.path ≠ seg) ∧
      (∀ last, (activePathChildren scenarioChildren ["b", "zzz"]).getLast? = some last →
        ∀ c ∈ last.childUIDs.filterMap (childrenMap scenarioChildren),
          c.path ≠ seg)) :=
  ⟨(c8_ancestry_resolution scenarioChildren ["b", "b/c"]).1,
   (c8_ancestry_resolution scenarioChildren ["b", "b/c"]).2.2.2.2.2.1,
   by decide,
   (c8_ancestry_resolution scenarioChildren ["b", "zzz"]).2.2.2.2.1 (by decide)⟩

/-- **C3** (amended): in unfiltered mode the recompute includes a node
iff its parent is the ROOT sentinel or its parent's uid is open; in the
scenario tree (top-level `A(1)`, `B(2)` with child `C(3)`) with the
active path resolving to `C`, the resulting OpenNodes is exactly
`{2, 3}` — the chain including the active node itself, not `{2}` — and
the VisibleList is `[A, B, C]` in order. -/
theorem c3_unfiltered_visibility :
    (∀ (children fc : List NavNode) (opens : Finset Nat) (c : NavNode),
      c ∈ generateNodesToRender children fc false opens ↔
        c ∈ children ∧
          (c.parent = none ∨ ∃ q, c.parent = some q ∧ q ∈ opens)) ∧
    FlatForest none [1, 2] scenarioChildren ∧
    (uidsOf scenarioChildren).Nodup ∧
    (restorePersistedState scenarioChildren "Tech" ["b", "b/c"]
      emptyStorage).openNodes = {2, 3} ∧
    (restorePersistedState scenarioChildren "Tech" ["b", "b/c"]
      emptyStorage).nodesToRender = [scA, scB, scC] := by
  refine ⟨?_, flatforest_scenario, by decide, by decide, by decide⟩
  intro children fc opens c
  rw [genNodes_unfiltered]
  exact mem_visU

/-- Counterexample to C3 as stated: with the scenario tree and active
path resolving to `C(3)`, the code opens the whole resolved chain —
`trackOpenNodes` uses `activePathChildren` itself, not only the strict
ancestors — so OpenNodes is `{2, 3}`, not exactly `{2}`. -/
theorem c3_counterexample :
    FlatForest none [1, 2] scenarioChildren ∧
    (uidsOf scenarioChildren).Nodup ∧
    (restorePersistedState scenarioChildren "Tech" ["b", "b/c"]
      emptyStorage).openNodes ≠ ({2} : Finset Nat) ∧
    3 ∈ (restorePersistedState scenarioChildren "Tech" ["b", "b/c"]
      emptyStorage).openNodes :=
  ⟨flatforest_scenario, by decide, by decide, by decide⟩

/-- **C5** (amended): a navigation event (the active path changed, the
filter state unchanged) is monotone on OpenNodes — every previously open
uid stays open — and the added uids are exactly those of the resolved
active-path chain when no filter is active, or of the strict ancestors
of all filter matches when a filter is active (not, in filtered mode,
the uids needed to reveal the new active node). -/
theorem c5_navigation_merge (children : List NavNode) (storage : StorageState)
    (deps db : DepsState) (s : CardState)
    (hfil : deps.filter = db.filter)
    (htags : deps.selectedTags = db.selectedTags) :
    s.openNodes ⊆
      (trackOpenNodes children storage deps (some db) true s).openNodes ∧
    (trackOpenNodes children storage deps (some db) true s).openNodes =
      s.openNodes ∪
        (uidsOf (if hasFilter deps.filter deps.selectedTags = false
          then deps.activePathChildren
          else deps.filteredChildren.flatMap
            (fun m => (getParents children m.uid).dropLast))).toFinset := by
  have hguard : skipGuard storage.filter storage.selectedTags deps (some db) =
      false := by
    rw [skipGuard]
    simp [hfil, htags]
  rw [trackOpenNodes, if_neg (by simp [hguard])]
  constructor
  · by_cases hf : hasFilter deps.filter deps.selectedTags <;>
      simp [trackOpenNodesCore, hf, Finset.subset_union_left]
  · by_cases hf : hasFilter deps.filter deps.selectedTags <;>
      simp [trackOpenNodesCore, hf]

/-- Counterexample to C5 as stated: navigating (with an unchanged,
active filter `"r"`) to the node `oS(4)` adds uid 2 to OpenNodes — an
ancestor of the filter match `oR`, but not among the uids needed to
reveal the new active node (the strict ancestors of `oS`, namely `{1}`). -/
theorem c5_counterexample :
    FlatForest none [1] oChildren ∧ (uidsOf oChildren).Nodup ∧
    activeUID (activePathChildren oChildren ["s"]) = some 4 ∧
    2 ∈ (trackOpenNodes oChildren emptyStorage
        ⟨filteredChildren oChildren "r" [], activePathChildren oChildren ["s"],
          "r", []⟩
        (some ⟨filteredChildren oChildren "r" [],
          activePathChildren oChildren ["q"], "r", []⟩) true
        ⟨∅, []⟩).openNodes ∧
    2 ∉ (∅ : Finset Nat) ∧
    2 ∉ uidsOf ((getParents oChildren 4).dropLast) :=
  ⟨flatforest_o, by decide, by decide, by decide, by decide, by decide⟩

/-- Witness for `c5_navigation_merge` at a concrete navigation on the
scenario tree starting with uid 7 open. -/
theorem c5_navigation_merge_witness :
    ({7} : Finset Nat) ⊆
      (trackOpenNodes scenarioChildren emptyStorage
        (initialDeps scenarioChildren ["b", "b/c"])
        (some (initialDeps scenarioChildren ["b"])) true
        ⟨{7}, []⟩).openNodes :=
  (c5_navigation_merge scenarioChildren emptyStorage
    (initialDeps scenarioChildren ["b", "b/c"])
    (initialDeps scenarioChildren ["b"]) ⟨{7}, []⟩ rfl rfl).1

/-- **C6** (amended): on mount the persisted snapshot is restored if and
only if it is not the empty-cache shape (some stored render uids or a
stored filter text) AND the stored technology equals the current one AND
every stored VisibleList uid resolves in the current flat node map; in
every other case the snapshot is discarded and the state falls back to
the manual `trackOpenNodes` call (which the restore-sync guard can turn
into a no-op when a stale filter or tag value is still persisted). -/
theorem c6_restore_condition (children : List NavNode) (technology : String)
    (activePath : List String) (storage : StorageState) :
    ((storage.nodesToRender ≠ [] ∨ storage.filter ≠ "") ∧
        storage.technology = some technology ∧
        (∀ u ∈ storage.nodesToRender, (childrenMap children u).isSome) →
      restorePersistedState children technology activePath storage =
        ⟨storage.filter, storage.filter, storage.selectedTags,
          storage.openNodes.toFinset,
          storage.nodesToRender.filterMap (childrenMap children)⟩) ∧
    (¬((storage.nodesToRender ≠ [] ∨ storage.filter ≠ "") ∧
        storage.technology = some technology ∧
        (∀ u ∈ storage.nodesToRender, (childrenMap children u).isSome)) →
      restorePersistedState children technology activePath storage =
        restoreFallback children activePath storage) := by
  constructor
  · rintro ⟨h1, h2, h3⟩
    rw [restorePersistedState, if_neg, if_neg]
    · simp only [Bool.or_eq_true, Bool.not_eq_true', decide_eq_true_eq]
      push_neg
      refine ⟨h2, ?_⟩
      have hall : storage.nodesToRender.all
          (fun u => (childrenMap children u).isSome) = true := by
        rw [List.all_eq_true]
        intro u hu
        simpa using h3 u hu
      simp [hall]
    · simp only [Bool.and_eq_true, List.isEmpty_iff, String.isEmpty_iff]
      rintro ⟨ha, hb⟩
      rcases h1 with h | h
      · exact h ha
      · exact h hb
  · intro h
    rw [restorePersistedState]
    by_cases hempty : (storage.nodesToRender.isEmpty && storage.filter.isEmpty) = true
    · rw [if_pos hempty]
    · rw [if_neg hempty, if_pos]
      have h1 : storage.nodesToRender ≠ [] ∨ storage.filter ≠ "" := by
        rw [Bool.and_eq_true, List.isEmpty_iff, String.isEmpty_iff] at hempty
        by_cases hl : storage.nodesToRender = []
        · right
          intro hs
          exact hempty ⟨hl, hs⟩
        · exact Or.inl hl
      have h23 : ¬(storage.technology = some technology ∧
          (∀ u ∈ storage.nodesToRender, (childrenMap children u).isSome)) := by
        intro hcon
        exact h ⟨h1, hcon.1, hcon.2⟩
      simp only [Bool.or_eq_true, Bool.not_eq_true', decide_eq_true_eq]
      by_cases h2 : storage.technology = some technology
      · refine Or.inr ?_
        have hnall : ¬(storage.nodesToRender.all
            (fun u => (childrenMap children u).isSome) = true) := by
          rw [List.all_eq_true]
          intro hall
          exact h23 ⟨h2, fun u hu => by simpa using hall u hu⟩
        simpa using hnall
      · exact Or.inl (by simpa using h2)

/-- Counterexample to C6 as stated: a snapshot whose stored technology
matches and whose stored VisibleList uids all (vacuously) resolve, but
whose list and filter are empty, is NOT restored — the empty-cache check
fires first and the stored open set `{1}` is discarded. -/
theorem c6_counterexample :
    (StorageState.technology ⟨some "t", [], "", [1], []⟩ = some "t") ∧
    (∀ u ∈ StorageState.nodesToRender ⟨some "t", [], "", [1], []⟩,
      (childrenMap [scA] u).isSome) ∧
    restorePersistedState [scA] "t" [] ⟨some "t", [], "", [1], []⟩ ≠
      ⟨"", "", [], List.toFinset [1], List.filterMap (childrenMap [scA]) []⟩ :=
  ⟨rfl, by decide, by decide⟩

/-- Witness for `c6_restore_condition`: a valid snapshot for the
one-node collection `[scA]` is restored verbatim. -/
theorem c6_restore_condition_witness :
    restorePersistedState [scA] "t" [] ⟨some "t", [1], "", [1], []⟩ =
      ⟨"", "", [], List.toFinset [1], List.filterMap (childrenMap [scA]) [1]⟩ :=
  (c6_restore_condition [scA] "t" [] ⟨some "t", [1], "", [1], []⟩).1
    ⟨Or.inl (by decide), rfl, by decide⟩

theorem apcFrom_subset (children : List NavNode) :
    ∀ (segs : List String) (pool : List NavNode),
      (∀ c ∈ pool, c ∈ children) →
      ∀ c ∈ activePathChildrenFrom children segs pool, c ∈ children := by
  intro segs
  induction segs with
  | nil => intro pool _ c hc; simp [activePathChildrenFrom] at hc
  | cons seg rest ih =>
    intro pool hpool c hc
    rw [activePathChildrenFrom] at hc
    cases hf : pool.find? (fun x => x.path = seg) with
    | none => rw [hf] at hc; simp at hc
    | some node =>
      rw [hf] at hc
      rcases List.mem_cons.mp hc with h1 | h2
      · exact h1 ▸ hpool node (List.mem_of_find?_eq_some hf)
      · refine ih _ ?_ c h2
        intro d hd
        exact (childrenMap_some (List.mem_filterMap.mp hd).choose_spec.2).1

theorem toggle_OpenOK {children : List NavNode} {s : CardState} {n : NavNode}
    (hok : OpenOK children s.openNodes) (hn : n ∈ children) :
    OpenOK children (toggle children s n).openNodes := by
  rw [toggle]
  by_cases hop : n.uid ∈ s.openNodes
  · rw [if_pos hop]
    intro u hu
    exact hok u (Finset.mem_sdiff.mp hu).1
  · rw [if_neg hop]
    intro u hu
    rcases Finset.mem_insert.mp hu with h1 | h2
    · exact ⟨n, hn, h1.symm⟩
    · exact hok u h2

theorem toggleFullTree_OpenOK {children : List NavNode} {s : CardState}
    {n : NavNode} (hok : OpenOK children s.openNodes) :
    OpenOK children (toggleFullTree children s n).openNodes := by
  rw [toggleFullTree]
  by_cases hop : n.uid ∈ s.openNodes
  · rw [if_pos hop, if_pos hop]
    intro u hu
    exact hok u (Finset.mem_sdiff.mp hu).1
  · rw [if_neg hop, if_neg hop]
    intro u hu
    rcases Finset.mem_union.mp hu with h1 | h2
    · exact hok u h1
    · rw [List.mem_toFinset] at h2
      obtain ⟨d, hd, hdu⟩ := mem_uidsOf.mp h2
      exact ⟨d, getAllChildrenFuel_subset _ _ d hd, hdu⟩

theorem trackOpenNodes_OpenOK {children : List NavNode}
    {storage : StorageState} {df : String} {tags : List FilterTag}
    {ap : List String} {depsBefore : Option DepsState} {pageChange : Bool}
    {s : CardState} (hok : OpenOK children s.openNodes) :
    OpenOK children (trackOpenNodes children storage
      ⟨filteredChildren children df tags, activePathChildren children ap,
        df, tags⟩ depsBefore pageChange s).openNodes := by
  rw [trackOpenNodes]
  by_cases hguard : skipGuard storage.filter storage.selectedTags
      ⟨filteredChildren children df tags, activePathChildren children ap,
        df, tags⟩ depsBefore = true
  · rw [if_pos hguard]
    exact hok
  · rw [if_neg hguard]
    have hnodes : ∀ c ∈ (if !(hasFilter df tags) then
        activePathChildren children ap
        else (filteredChildren children df tags).flatMap
          (fun m => (getParents children m.uid).dropLast)), c ∈ children := by
      by_cases hf : hasFilter df tags = true
      · rw [if_neg (by simp [hf])]
        intro c hc
        rw [List.mem_flatMap] at hc
        obtain ⟨m, _, hcm⟩ := hc
        have : c ∈ getParents children m.uid :=
          (List.dropLast_sublist _).subset hcm
        exact getParentsFuel_subset _ _ c this
      · rw [if_pos (by simp [Bool.not_eq_true] at hf; simp [hf])]
        exact apcFrom_subset children ap children (fun c hc => hc)
    intro u hu
    have hmem : u ∈ (if pageChange then s.openNodes else ∅) ∪
        (uidsOf (if !(hasFilter df tags) then activePathChildren children ap
          else (filteredChildren children df tags).flatMap
            (fun m => (getParents children m.uid).dropLast))).toFinset ∨
        u ∈ s.openNodes := by
      rw [trackOpenNodesCore] at hu
      by_cases hpc : pageChange
      · simp only [hpc, if_true] at hu ⊢
        rcases Finset.mem_union.mp hu with h1 | h2
        · exact Or.inr h1
        · exact Or.inl (Finset.mem_union_right _ h2)
      · simp only [hpc, if_false] at hu ⊢
        exact Or.inl (Finset.mem_union_right _ hu)
    rcases hmem with h1 | h2
    · rcases Finset.mem_union.mp h1 with ha | hb
      · by_cases hpc : pageChange
        · rw [if_pos hpc] at ha
          exact hok u ha
        · rw [if_neg hpc] at ha
          simp at ha
      · rw [List.mem_toFinset] at hb
        obtain ⟨d, hd, hdu⟩ := mem_uidsOf.mp hb
        exact ⟨d, hnodes d hd, hdu⟩
    · exact hok u h2

theorem restore_OpenOK {children : List NavNode} {tech : String}
    {ap : List String} {storage : StorageState}
    (hstored : ∀ u ∈ storage.openNodes, ∃ m ∈ children, m.uid = u) :
    OpenOK children
      (restorePersistedState children tech ap storage).openNodes := by
  rw [restorePersistedState]
  by_cases hempty : (storage.nodesToRender.isEmpty && storage.filter.isEmpty) = true
  · rw [if_pos hempty]
    exact trackOpenNodes_OpenOK (by intro u hu; simp at hu)
  · rw [if_neg hempty]
    by_cases hrej : (storage.technology ≠ some tech ||
        !storage.nodesToRender.all (fun uid => ((childrenMap children) uid).isSome)) = true
    · rw [if_pos hrej]
      exact trackOpenNodes_OpenOK (by intro u hu; simp at hu)
    · rw [if_neg hrej]
      intro u hu
      rw [List.mem_toFinset] at hu
      exact hstored u hu

/-- **C7** (amended): toggles with a node of the collection, subtree
toggles, and tracked navigation/filter updates all preserve the
invariant that every uid in OpenNodes resolves in the flat node map —
but restoration from a persisted snapshot validates only the stored
VisibleList uids, not the stored OpenNodes uids, so it preserves the
invariant only under the extra premise that the stored open uids
resolve. -/
theorem c7_open_uid_validity :
    (∀ (children : List NavNode) (s : CardState) (n : NavNode),
      OpenOK children s.openNodes → n ∈ children →
      OpenOK children (toggle children s n).openNodes) ∧
    (∀ (children : List NavNode) (s : CardState) (n : NavNode),
      OpenOK children s.openNodes →
      OpenOK children (toggleFullTree children s n).openNodes) ∧
    (∀ (children : List NavNode) (storage : StorageState) (df : String)
        (tags : List FilterTag) (ap : List String)
        (depsBefore : Option DepsState) (pageChange : Bool) (s : CardState),
      OpenOK children s.openNodes →
      OpenOK children (trackOpenNodes children storage
        ⟨filteredChildren children df tags, activePathChildren children ap,
          df, tags⟩ depsBefore pageChange s).openNodes) ∧
    (∀ (children : List NavNode) (tech : String) (ap : List String)
        (storage : StorageState),
      (∀ u ∈ storage.openNodes, ∃ m ∈ children, m.uid = u) →
      OpenOK children
        (restorePersistedState children tech ap storage).openNodes) :=
  ⟨fun _ _ _ hok hn => toggle_OpenOK hok hn,
   fun _ _ _ hok => toggleFullTree_OpenOK hok,
   fun _ _ _ _ _ _ _ _ hok => trackOpenNodes_OpenOK hok,
   fun _ _ _ _ hstored => restore_OpenOK hstored⟩

/-- Counterexample to C7 as stated: restoring a snapshot whose stored
VisibleList uids all resolve but whose stored OpenNodes contains the
foreign uid 99 leaves 99 in OpenNodes, although no node of the
collection has uid 99. -/
theorem c7_counterexample :
    (∀ u ∈ StorageState.nodesToRender ⟨some "t", [1], "", [99], []⟩,
      (childrenMap [scA] u).isSome) ∧
    99 ∈ (restorePersistedState [scA] "t" []
      ⟨some "t", [1], "", [99], []⟩).openNodes ∧
    (∀ m ∈ [scA], m.uid ≠ 99) :=
  ⟨by decide, by decide, by decide⟩

/-- Witness for `c7_open_uid_validity`: toggling `scB` on the scenario
collection keeps OpenNodes valid. -/
theorem c7_open_uid_validity_witness :
    OpenOK scenarioChildren
      (toggle scenarioChildren ⟨∅, [scA, scB]⟩ scB).openNodes :=
  c7_open_uid_validity.1 scenarioChildren ⟨∅, [scA, scB]⟩ scB
    (by intro u hu; simp at hu) (by decide)

/-- **C2** (amended): after a filter change, OpenNodes is exactly the
set of uids of strict ancestors of direct matches, and the recompute
renders exactly the nodes that are a direct match or an ancestor of a
match, PLUS every child of an open direct match (a match that is itself
an ancestor of another match) — not only the union of matches and their
ancestor chains; order is document order (a sublist of the flat list). -/
theorem c2_filtered_recompute (children : List NavNode) (rus : List Nat)
    (HF : FlatForest none rus children) (HU : (uidsOf children).Nodup)
    (df : String) (tags : List FilterTag) (hf : hasFilter df tags = true)
    (apc : List NavNode) (s : CardState) :
    (∀ u, u ∈ (trackOpenNodesCore children
        ⟨filteredChildren children df tags, apc, df, tags⟩ false s).openNodes ↔
      ∃ m ∈ filteredChildren children df tags, ∃ a,
        AncestorOf (childrenMap children) a m ∧ a ≠ m ∧ a.uid = u) ∧
    (∀ c, c ∈ (trackOpenNodesCore children
        ⟨filteredChildren children df tags, apc, df, tags⟩ false s).nodesToRender ↔
      c ∈ children ∧
        ((∃ m ∈ filteredChildren children df tags,
            AncestorOf (childrenMap children) c m) ∨
         (∃ q m2, c.parent = some q ∧
           q ∈ (trackOpenNodesCore children
             ⟨filteredChildren children df tags, apc, df, tags⟩ false s).openNodes ∧
           childrenMap children q = some m2 ∧
           m2 ∈ filteredChildren children df tags))) ∧
    (trackOpenNodesCore children
      ⟨filteredChildren children df tags, apc, df, tags⟩ false s).nodesToRender.Sublist
      children := by
  have hT : trackOpenNodesCore children
      ⟨filteredChildren children df tags, apc, df, tags⟩ false s =
      ⟨(uidsOf ((filteredChildren children df tags).flatMap
          (fun m => (getParents children m.uid).dropLast))).toFinset,
        generateNodesToRender children (filteredChildren children df tags) true
          (uidsOf ((filteredChildren children df tags).flatMap
            (fun m => (getParents children m.uid).dropLast))).toFinset⟩ := by
    rw [trackOpenNodesCore]
    simp [hf]
  rw [hT]
  refine ⟨?_, ?_, ?_⟩
  · intro u
    simp only [List.mem_toFinset, mem_uidsOf, List.mem_flatMap]
    constructor
    · rintro ⟨a, ⟨m, hm, ha⟩, hau⟩
      obtain ⟨hanc, hne⟩ := (mem_getParents_dropLast_iff HF HU
        (filteredChildren_subset m hm) a).mp ha
      exact ⟨m, hm, a, hanc, hne, hau⟩
    · rintro ⟨m, hm, a, hanc, hne, hau⟩
      refine ⟨a, ⟨m, hm, ?_⟩, hau⟩
      exact (mem_getParents_dropLast_iff HF HU
        (filteredChildren_subset m hm) a).mpr ⟨hanc, hne⟩
  · intro c
    exact mem_genNodes_filtered HF HU
      (fun m hm => filteredChildren_subset m hm) _ c
  · exact List.filter_sublist _

/-- Counterexample to C2 as stated: with filter text `"match"` on
`gChildren` the direct matches are `gA` and `gC` and the union of
matches and their ancestor chains is `{gA, gC}`, yet the recompute also
renders `gB` — a child of the open direct match `gA` that is neither a
match nor an ancestor of one. -/
theorem c2_counterexample :
    FlatForest none [1] gChildren ∧ (uidsOf gChildren).Nodup ∧
    filteredChildren gChildren "match" [] = [gA, gC] ∧
    (trackOpenNodesCore gChildren
      ⟨filteredChildren gChildren "match" [], [], "match", []⟩ false
      ⟨∅, []⟩).nodesToRender = [gA, gB, gC] ∧
    gB ∉ filteredChildren gChildren "match" [] ∧
    gB ∉ (filteredChildren gChildren "match" []).flatMap
      (fun m => getParents gChildren m.uid) :=
  ⟨flatforest_g, by decide, by decide, by decide, by decide, by decide⟩

/-- Witness for `c2_filtered_recompute` at the concrete collection
`gChildren` with filter text `"match"`. -/
theorem c2_filtered_recompute_witness :
    (trackOpenNodesCore gChildren
      ⟨filteredChildren gChildren "match" [], [], "match", []⟩ false
      ⟨∅, []⟩).nodesToRender.Sublist gChildren :=
  (c2_filtered_recompute gChildren [1] flatforest_g (by decide) "match" []
    (by decide) [] ⟨∅, []⟩).2.2

/-- **C1** (amended): with NO filter active, starting from any state
whose OpenNodes is parent-closed and whose VisibleList equals the full
recompute (as produced by top-level navigation tracking), any finite
sequence of `toggle`/`toggleFullTree` gestures on nodes that are
rendered at the moment they fire keeps the incrementally patched
VisibleList equal, element for element and in order, to the full
recompute from the resulting OpenNodes. -/
theorem c1_patch_recompute_equiv (children : List NavNode) (rus : List Nat)
    (HF : FlatForest none rus children) (HU : (uidsOf children).Nodup)
    (s : CardState) (hWF : WFopen children s.openNodes)
    (hlist : s.nodesToRender = generateNodesToRender children
      (filteredChildren children "" []) (hasFilter "" []) s.openNodes)
    (ops : List NavOp) (hops : validOps children s ops = true) :
    (applyOps children s ops).nodesToRender =
      generateNodesToRender children (filteredChildren children "" [])
        (hasFilter "" []) (applyOps children s ops).openNodes := by
  have h0 : hasFilter "" ([] : List FilterTag) = false := rfl
  rw [h0, genNodes_unfiltered] at hlist ⊢
  exact (applyOps_preserves HF HU ops s ⟨hWF, hlist⟩ hops).2

/-- Counterexample to C1 as stated, in its three failure modes.
(i) Filtered mode: after filtering `fChildren` with `"match"`, toggling
the rendered ancestor `fA` closed patches the list to `[fA]`, while a
full recompute over the resulting OpenNodes still shows the match
`[fA, fB]`.  (ii) A reachable unfiltered state whose active path
resolved to the nested node `oQ` (openNodes `{2}` without its parent):
toggling the rendered root `oP` splices its children right after it,
yielding `[oP, oQ, oS, oR]`, while the recompute yields document order
`[oP, oQ, oR, oS]`.  (iii) Toggling a node that is NOT rendered (`tC`)
splices at the front, diverging from the recompute's document order. -/
theorem c1_counterexample :
    (FlatForest none [1] fChildren ∧ (uidsOf fChildren).Nodup ∧
      fA ∈ (trackOpenNodesCore fChildren
        ⟨filteredChildren fChildren "match" [], [], "match", []⟩ false
        ⟨∅, []⟩).nodesToRender ∧
      (toggle fChildren (trackOpenNodesCore fChildren
        ⟨filteredChildren fChildren "match" [], [], "match", []⟩ false
        ⟨∅, []⟩) fA).nodesToRender ≠
      generateNodesToRender fChildren (filteredChildren fChildren "match" [])
        (hasFilter "match" [])
        (toggle fChildren (trackOpenNodesCore fChildren
          ⟨filteredChildren fChildren "match" [], [], "match", []⟩ false
          ⟨∅, []⟩) fA).openNodes) ∧
    (FlatForest none [1] oChildren ∧ (uidsOf oChildren).Nodup ∧
      oP ∈ (restorePersistedState oChildren "t" ["q"] emptyStorage).nodesToRender ∧
      (toggle oChildren
        ⟨(restorePersistedState oChildren "t" ["q"] emptyStorage).openNodes,
         (restorePersistedState oChildren "t" ["q"] emptyStorage).nodesToRender⟩
        oP).nodesToRender ≠
      generateNodesToRender oChildren [] false
        (toggle oChildren
          ⟨(restorePersistedState oChildren "t" ["q"] emptyStorage).openNodes,
           (restorePersistedState oChildren "t" ["q"] emptyStorage).nodesToRender⟩
          oP).openNodes) ∧
    (FlatForest none [1, 2] tChildren ∧ (uidsOf tChildren).Nodup ∧
      tC ∉ (restorePersistedState tChildren "t" [] emptyStorage).nodesToRender ∧
      (toggle tChildren
        ⟨(restorePersistedState tChildren "t" [] emptyStorage).openNodes,
         (restorePersistedState tChildren "t" [] emptyStorage).nodesToRender⟩
        tC).nodesToRender ≠
      generateNodesToRender tChildren [] false
        (toggle tChildren
          ⟨(restorePersistedState tChildren "t" [] emptyStorage).openNodes,
           (restorePersistedState tChildren "t" [] emptyStorage).nodesToRender⟩
          tC).openNodes) :=
  ⟨⟨flatforest_f, by decide, by decide, by decide⟩,
   ⟨flatforest_o, by decide, by decide, by decide⟩,
   ⟨flatforest_t, by decide, by decide, by decide⟩⟩

/-- Witness for `c1_patch_recompute_equiv`: on the scenario collection,
from the fully collapsed state, toggle `scB` open, then subtree-toggle
`scB`, then toggle `scA`. -/
theorem c1_patch_recompute_equiv_witness :
    validOps scenarioChildren ⟨∅, [scA, scB]⟩
      [NavOp.tog scB, NavOp.togFull scB, NavOp.tog scA] = true ∧
    (applyOps scenarioChildren ⟨∅, [scA, scB]⟩
      [NavOp.tog scB, NavOp.togFull scB, NavOp.tog scA]).nodesToRender =
      generateNodesToRender scenarioChildren (filteredChildren scenarioChildren "" [])
        (hasFilter "" [])
        (applyOps scenarioChildren ⟨∅, [scA, scB]⟩
          [NavOp.tog scB, NavOp.togFull scB, NavOp.tog scA]).openNodes :=
  ⟨by decide,
   c1_patch_recompute_equiv scenarioChildren [1, 2] flatforest_scenario
    (by decide) ⟨∅, [scA, scB]⟩ (by intro u hu; simp at hu) (by decide)
    [NavOp.tog scB, NavOp.togFull scB, NavOp.tog scA] (by decide)⟩

/-- **C4** (amended): with no filter active, from any consistent state —
OpenNodes parent-closed and VisibleList equal to the full recompute over
OpenNodes, the shape produced by top-level navigation tracking — toggling
a rendered node twice restores OpenNodes and VisibleList exactly,
PROVIDED no strict descendant of the node is open before the first
toggle (automatic when the node is closed; needed when it is open, since
closing collapses the whole subtree and re-opening restores only the
immediate children). -/
theorem c4_toggle_involution (children : List NavNode) (rus : List Nat)
    (HF : FlatForest none rus children) (HU : (uidsOf children).Nodup)
    (s : CardState) (hWF : WFopen children s.openNodes)
    (hlist : s.nodesToRender = generateNodesToRender children
      (filteredChildren children "" []) (hasFilter "" []) s.openNodes)
    (n : NavNode) (hvis : n ∈ s.nodesToRender)
    (hnd : ∀ c ∈ (getAllChildren children n.uid).drop 1, c.uid ∉ s.openNodes) :
    toggle children (toggle children s n) n = s := by
  have h0 : hasFilter "" ([] : List FilterTag) = false := rfl
  rw [h0, genNodes_unfiltered] at hlist
  exact toggle_toggle_restore HF HU ⟨hWF, hlist⟩ hvis hnd

/-- Counterexample to C4 as stated, in two failure modes.
(i) In the reachable state for the chain `hN(1) → hC(2) → hG(3)` with
the active path at `hG` (OpenNodes `{1, 2, 3}`), toggling `hN` twice
does not restore the state — closing collapses the whole open chain and
re-opening restores only `hC`.
(ii) Open-descendant-freedom alone does not suffice: mounting
`oChildren` at the nested path `["q"]` and toggling the root `oP`
reaches the state `oMountToggled` with OpenNodes `{1, 2}` and
VisibleList `[oP, oQ, oS, oR]` — the open set is parent-closed but the
render list is out of document order and differs from the recompute;
there `oQ` is rendered, no filter is active and no strict descendant of
`oQ` is open, yet toggling `oQ` twice re-splices `oR` in document
order, yielding `[oP, oQ, oR, oS]` — restoration additionally needs the
consistency proviso (VisibleList equal to the full recompute over
OpenNodes). -/
theorem c4_counterexample :
    (FlatForest none [1] hChildren ∧ (uidsOf hChildren).Nodup ∧
      hN ∈ (restorePersistedState hChildren "t" ["n", "n/c", "n/c/g"]
        emptyStorage).nodesToRender ∧
      toggle hChildren (toggle hChildren
        ⟨(restorePersistedState hChildren "t" ["n", "n/c", "n/c/g"]
            emptyStorage).openNodes,
         (restorePersistedState hChildren "t" ["n", "n/c", "n/c/g"]
            emptyStorage).nodesToRender⟩ hN) hN ≠
        ⟨(restorePersistedState hChildren "t" ["n", "n/c", "n/c/g"]
            emptyStorage).openNodes,
         (restorePersistedState hChildren "t" ["n", "n/c", "n/c/g"]
            emptyStorage).nodesToRender⟩) ∧
    (oMountToggled.nodesToRender = [oP, oQ, oS, oR] ∧
      1 ∈ oMountToggled.openNodes ∧ 2 ∈ oMountToggled.openNodes ∧
      3 ∉ oMountToggled.openNodes ∧ 4 ∉ oMountToggled.openNodes ∧
      WFopen oChildren oMountToggled.openNodes ∧
      oQ ∈ oMountToggled.nodesToRender ∧
      (∀ c ∈ (getAllChildren oChildren oQ.uid).drop 1,
        c.uid ∉ oMountToggled.openNodes) ∧
      oMountToggled.nodesToRender ≠ generateNodesToRender oChildren
        (filteredChildren oChildren "" []) (hasFilter "" [])
        oMountToggled.openNodes ∧
      (toggle oChildren (toggle oChildren oMountToggled oQ) oQ).nodesToRender ≠
        oMountToggled.nodesToRender) :=
  ⟨⟨flatforest_h, by decide, by decide, by decide⟩,
   ⟨by decide, by decide, by decide, by decide, by decide,
    by
      have hsub : ∀ u ∈ oMountToggled.openNodes, u = 1 ∨ u = 2 := by decide
      intro u hu
      rcases hsub u hu with rfl | rfl
      · exact ⟨oP, by decide, rfl, Or.inl rfl⟩
      · exact ⟨oQ, by decide, rfl, Or.inr ⟨1, rfl, by decide⟩⟩,
    by decide, by decide, by decide, by decide⟩⟩

/-- Witness for `c4_toggle_involution`: toggling `scB` twice from the
fully collapsed scenario state restores it. -/
theorem c4_toggle_involution_witness :
    toggle scenarioChildren
      (toggle scenarioChildren ⟨∅, [scA, scB]⟩ scB) scB = ⟨∅, [scA, scB]⟩ :=
  c4_toggle_involution scenarioChildren [1, 2] flatforest_scenario (by decide)
    ⟨∅, [scA, scB]⟩ (by intro u hu; simp at hu) (by decide) scB (by decide)
    (by decide)
